import Mathlib

/-!
Verification development for the slog-bugsnag handler library
(a Go slog middleware that forwards log records to bugsnag).

The Go source is shallowly embedded: Go runtime values that the sanitizer
walks become the inductive `GoVal` (pointers become addresses into an
explicit heap, so reference cycles are representable), the sanitizer
`sanitizer.Sanitize` from metadata.go becomes the fueled function
`Sanitize` (fuel is a modelling artifact; `Sanitize_fuel_sufficient`
shows a computable fuel bound always suffices, which is the termination
argument), and the remaining operations (error normalization, attribute
flattening and accumulation, queue overflow, dispatcher shutdown) are
embedded per-function below.
-/

namespace SlogBugsnag

/-- A Go runtime value as seen by the sanitizer in metadata.go.
Composite values carry their children structurally; a non-nil pointer is
an address into an explicit heap (`Heap`), which is how self-referential
values are represented.  Constructors for `error`, `time.Time`,
`fmt.Stringer` and the `encoding` text capabilities carry the string the
corresponding Go method call would produce.  A struct field is
`(name, json tag ("" when absent), exported?, value)`. -/
inductive GoVal where
  | vbool (b : Bool)
  | vint (n : Int)
  | vstr (s : String)
  | verr (msg : String)
  | vtime (formatted : String)
  | vstringer (s : String)
  | vtextUnm (ok : Bool)
  | vtextMar (txt : String)
  | vnil
  | vptr (addr : Nat)
  | vslice (elems : List GoVal)
  | vmap (entries : List (String × GoVal))
  | vstruct (fields : List (String × String × Bool × GoVal))
  | vother (typeName : String)

/-- The display-safe values `Sanitize` produces (what bugsnag can show). -/
inductive SanOut where
  | obool (b : Bool)
  | oint (n : Int)
  | ostr (s : String)
  | oslice (elems : List SanOut)
  | omap (entries : List (String × SanOut))

mutual

/-- Structural equality of Go values (pointer values compare by address);
this is the decidable equality used to model `reflect.DeepEqual` in the
seen-list check of `Sanitize`. -/
def goEq : GoVal → GoVal → Bool
  | GoVal.vbool a, GoVal.vbool b => a == b
  | GoVal.vint a, GoVal.vint b => a == b
  | GoVal.vstr a, GoVal.vstr b => a == b
  | GoVal.verr a, GoVal.verr b => a == b
  | GoVal.vtime a, GoVal.vtime b => a == b
  | GoVal.vstringer a, GoVal.vstringer b => a == b
  | GoVal.vtextUnm a, GoVal.vtextUnm b => a == b
  | GoVal.vtextMar a, GoVal.vtextMar b => a == b
  | GoVal.vnil, GoVal.vnil => true
  | GoVal.vptr a, GoVal.vptr b => a == b
  | GoVal.vslice xs, GoVal.vslice ys => goEqL xs ys
  | GoVal.vmap xs, GoVal.vmap ys => goEqKV xs ys
  | GoVal.vstruct xs, GoVal.vstruct ys => goEqF xs ys
  | GoVal.vother a, GoVal.vother b => a == b
  | _, _ => false
termination_by structural a => a

def goEqL : List GoVal → List GoVal → Bool
  | [], [] => true
  | x :: xs, y :: ys => goEq x y && goEqL xs ys
  | _, _ => false
termination_by structural a => a

def goEqKV : List (String × GoVal) → List (String × GoVal) → Bool
  | [], [] => true
  | (k, x) :: xs, (l, y) :: ys => k == l && goEq x y && goEqKV xs ys
  | _, _ => false
termination_by structural a => a

def goEqF : List (String × String × Bool × GoVal) →
    List (String × String × Bool × GoVal) → Bool
  | [], [] => true
  | (n, t, e, x) :: xs, (m, u, f, y) :: ys =>
    n == m && t == u && e == f && goEq x y && goEqF xs ys
  | _, _ => false
termination_by structural a => a

end

theorem goEqL_iff (xs : List GoVal)
    (ih : ∀ x ∈ xs, ∀ y, goEq x y = true ↔ x = y) :
    ∀ ys, goEqL xs ys = true ↔ xs = ys := by
  induction xs with
  | nil => intro ys; cases ys <;> simp [goEqL]
  | cons x xs ihl =>
    intro ys
    cases ys with
    | nil => simp [goEqL]
    | cons y ys =>
      have hx := ih x (List.mem_cons_self x xs) y
      have hrest := ihl (fun z hz => ih z (List.mem_cons_of_mem x hz)) ys
      simp [goEqL, hx, hrest]

theorem goEqKV_iff (xs : List (String × GoVal))
    (ih : ∀ p ∈ xs, ∀ y, goEq p.2 y = true ↔ p.2 = y) :
    ∀ ys, goEqKV xs ys = true ↔ xs = ys := by
  induction xs with
  | nil => intro ys; cases ys <;> simp [goEqKV]
  | cons p xs ihl =>
    intro ys
    cases ys with
    | nil => simp [goEqKV]
    | cons q ys =>
      obtain ⟨k, x⟩ := p
      obtain ⟨l, y⟩ := q
      have hx := ih (k, x) (List.mem_cons_self _ xs) y
      have hrest := ihl (fun z hz => ih z (List.mem_cons_of_mem _ hz)) ys
      simp only [goEqKV, Bool.and_eq_true, beq_iff_eq, hx, hrest, List.cons.injEq,
        Prod.mk.injEq, and_assoc]

theorem goEqF_iff (xs : List (String × String × Bool × GoVal))
    (ih : ∀ p ∈ xs, ∀ y, goEq p.2.2.2 y = true ↔ p.2.2.2 = y) :
    ∀ ys, goEqF xs ys = true ↔ xs = ys := by
  induction xs with
  | nil => intro ys; cases ys <;> simp [goEqF]
  | cons p xs ihl =>
    intro ys
    cases ys with
    | nil => simp [goEqF]
    | cons q ys =>
      obtain ⟨n, t, e, x⟩ := p
      obtain ⟨m, u, f, y⟩ := q
      have hx := ih (n, t, e, x) (List.mem_cons_self _ xs) y
      have hrest := ihl (fun z hz => ih z (List.mem_cons_of_mem _ hz)) ys
      simp only [goEqF, Bool.and_eq_true, beq_iff_eq, hx, hrest, List.cons.injEq,
        Prod.mk.injEq, and_assoc]

theorem goEq_iff_aux : ∀ n a b, sizeOf a ≤ n → (goEq a b = true ↔ a = b) := by
  intro n
  induction n with
  | zero =>
    intro a b ha
    exfalso
    cases a <;> simp_all
  | succ n ih =>
    intro a b ha
    cases a <;> cases b <;> simp [goEq]
    case vslice.vslice xs ys =>
      refine goEqL_iff xs (fun x hx y => ih x y ?_) ys
      have := List.sizeOf_lt_of_mem hx
      simp at ha
      omega
    case vmap.vmap xs ys =>
      refine goEqKV_iff xs (fun p hp y => ih p.2 y ?_) ys
      have h1 := List.sizeOf_lt_of_mem hp
      obtain ⟨k, x⟩ := p
      simp at ha h1 ⊢
      omega
    case vstruct.vstruct xs ys =>
      refine goEqF_iff xs (fun p hp y => ih p.2.2.2 y ?_) ys
      have h1 := List.sizeOf_lt_of_mem hp
      obtain ⟨a, b, c, x⟩ := p
      simp at ha h1 ⊢
      omega

theorem goEq_iff_eq (a b : GoVal) : goEq a b = true ↔ a = b :=
  goEq_iff_aux (sizeOf a) a b (Nat.le_refl _)

instance : DecidableEq GoVal := fun a b => decidable_of_iff _ (goEq_iff_eq a b)

instance : Inhabited GoVal := ⟨GoVal.vnil⟩

instance : Inhabited SanOut := ⟨SanOut.ostr ""⟩

/-- The heap backing non-nil pointers: an association list from address
to pointee. -/
abbrev Heap := List (Nat × GoVal)

/-- Dereference: `heapGet H a` is the pointee of address `a` (a missing
address reads as the nil value; well-formed inputs always resolve). -/
def heapGet (H : Heap) (a : Nat) : GoVal :=
  match H.find? (fun p => p.1 = a) with
  | some p => p.2
  | none => GoVal.vnil

/-- ASCII lower-casing of one character (model of Go's `strings.ToLower`
for the ASCII keys and filters this library handles). -/
def charLower (c : Char) : Char :=
  if 65 ≤ c.toNat ∧ c.toNat ≤ 90 then Char.ofNat (c.toNat + 32) else c

/-- Lower-casing of a character list. -/
def lowerChars (cs : List Char) : List Char := cs.map charLower

/-- `hasPre needle hay`: does `hay` start with `needle`?  (Character-level
helper for Go's `strings.Contains`.) -/
def hasPre : List Char → List Char → Bool
  | [], _ => true
  | _ :: _, [] => false
  | c :: cs, d :: ds => c == d && hasPre cs ds

/-- Go `strings.Contains hay needle`: `needle` occurs as a contiguous
substring of `hay` (the empty needle always occurs). -/
def strContainsSub : List Char → List Char → Bool
  | [], needle => needle.isEmpty
  | c :: rest, needle => hasPre needle (c :: rest) || strContainsSub rest needle

/-- metadata.go `shouldRedact`: true iff the lower-cased key contains
some lower-cased filter as a substring. -/
def shouldRedact (key : String) (filters : List String) : Bool :=
  filters.any (fun f => strContainsSub (lowerChars key.toList) (lowerChars f.toList))

/-- Splitting a character list at every comma (Go `strings.Split` with
separator ","); splitting the empty list yields one empty word. -/
def splitComma : List Char → List (List Char)
  | [] => [[]]
  | c :: cs =>
    let r := splitComma cs
    if c = ',' then [] :: r
    else
      match r with
      | [] => [[c]]
      | w :: ws => (c :: w) :: ws

/-- json_tags.go `parseTag` (this file of the repository is known only
through its test; modelled from the spec's field-name resolution rule and
the repository's TestTagParsing, i.e. the encoding/json semantics: the
name is the text before the first comma, the options are the
comma-separated rest, and `tagOptions.Contains` is exact membership in
that rest, here plain list membership). -/
def parseTag (tag : String) : String × List String :=
  match splitComma tag.toList with
  | [] => ("", [])
  | n :: opts => (String.mk n, opts.map String.mk)

/-- The field name `sanitizeStruct` uses: the parsed json tag name when a
tag is present (Go: `len(jsonTag) != 0`), the Go field name otherwise. -/
def resolvedName (fname tag : String) : String :=
  if tag ≠ "" then (parseTag tag).1 else fname

/-- The tag options `sanitizeStruct` uses for the field. -/
def resolvedOpts (tag : String) : List String :=
  if tag ≠ "" then (parseTag tag).2 else []

/-- The element loop of the Array/Slice case of `Sanitize` (metadata.go):
sanitize each element in order; `none` propagates fuel exhaustion. -/
def sanitizeList (san : GoVal → Option SanOut) : List GoVal → Option (List SanOut)
  | [] => some []
  | x :: xs =>
    match san x, sanitizeList san xs with
    | some o, some os => some (o :: os)
    | _, _ => none

/-- metadata.go `sanitizer.sanitizeMap`, with the recursive `Sanitize`
call abstracted as `san`: each value is sanitized first, then replaced by
"[FILTERED]" when its key matches the redaction policy.  The returned
list is the sequence of map insertions (Go's `ret[newKey] = val`) in
iteration order; as in a Go map, a later binding for the same key wins,
which observations go through `mlookup`. -/
def sanitizeMap (filters : List String) (san : GoVal → Option SanOut) :
    List (String × GoVal) → Option (List (String × SanOut))
  | [] => some []
  | (k, x) :: rest =>
    match san x, sanitizeMap filters san rest with
    | some xv, some restv =>
      some ((k, if shouldRedact k filters then SanOut.ostr "[FILTERED]" else xv) :: restv)
    | _, _ => none

/-- metadata.go `sanitizer.sanitizeStruct`, with the recursive `Sanitize`
call abstracted as `san`.  Unexported fields are skipped; a redacted name
is bound to "[FILTERED]" without sanitizing the value; otherwise the
sanitized value is kept unless it is a string, the tag options contain
"omitempty" and the string is empty. -/
def sanitizeStruct (filters : List String) (san : GoVal → Option SanOut) :
    List (String × String × Bool × GoVal) → Option (List (String × SanOut))
  | [] => some []
  | (fname, tag, exported, val) :: rest =>
    if exported = false then sanitizeStruct filters san rest
    else
      let name := resolvedName fname tag
      if shouldRedact name filters then
        (sanitizeStruct filters san rest).map (fun r => (name, SanOut.ostr "[FILTERED]") :: r)
      else
        match san val, sanitizeStruct filters san rest with
        | some sv, some restv =>
          match sv with
          | SanOut.ostr s =>
            if "omitempty" ∈ resolvedOpts tag ∧ s = "" then some restv
            else some ((name, SanOut.ostr s) :: restv)
          | _ => some ((name, sv) :: restv)
        | _, _ => none

/-- Go-map observation of the insertion sequences produced by
`sanitizeMap`/`sanitizeStruct`: the value of the last binding of a key. -/
def mlookup (entries : List (String × SanOut)) (k : String) : Option SanOut :=
  (entries.reverse.find? (fun p => p.1 = k)).map (fun p => p.2)

/-- metadata.go `sanitizer.Sanitize`.  `seen` is the `Seen` list of the
`sanitizer` value; Go passes the sanitizer by value, so each recursive
call receives its own copy, extended with the current node
(`s.Seen = append(s.Seen, data)`).  `reflect.DeepEqual` against the seen
entries is modelled as structural equality of `GoVal` (pointer values
compare by address).  The `fuel` argument is a modelling artifact that
makes the recursion structural; `Sanitize_fuel_sufficient` below shows a
computable bound always suffices, which is the termination argument.
Branches, in the source's order: the seen-list recursion guard, then the
interface switch (error, time.Time, fmt.Stringer,
encoding.TextUnmarshaler — the last calls `UnmarshalText` on a nil byte
slice, so success yields the empty string and failure falls through to
kind dispatch), then kind dispatch (primitives pass through, nil renders
"<nil>", pointers deref and recurse, slices/maps/structs recurse
elementwise, anything else renders a bracketed type name).  A value whose
dynamic type matches none of the interfaces — such as a plain
`encoding.TextMarshaler` like the repository's test type
`_textMarshaller` — reaches kind dispatch directly; `vtextUnm` and
`vtextMar` both have an empty struct as their underlying kind. -/
def Sanitize (H : Heap) (filters : List String) (fuel : Nat) :
    List GoVal → GoVal → Option SanOut :=
  match fuel with
  | 0 => fun _ _ => none
  | fuel + 1 => fun seen v =>
    if v ∈ seen then some (SanOut.ostr "[RECURSION]")
    else
      let seen' := seen ++ [v]
      match v with
      | GoVal.verr m => some (SanOut.ostr m)
      | GoVal.vtime s => some (SanOut.ostr s)
      | GoVal.vstringer s => some (SanOut.ostr s)
      | GoVal.vtextUnm ok =>
        if ok then some (SanOut.ostr "")
        else (sanitizeStruct filters (Sanitize H filters fuel seen') []).map SanOut.omap
      | GoVal.vbool b => some (SanOut.obool b)
      | GoVal.vint n => some (SanOut.oint n)
      | GoVal.vstr s => some (SanOut.ostr s)
      | GoVal.vnil => some (SanOut.ostr "<nil>")
      | GoVal.vptr a => Sanitize H filters fuel seen' (heapGet H a)
      | GoVal.vslice xs => (sanitizeList (Sanitize H filters fuel seen') xs).map SanOut.oslice
      | GoVal.vmap es => (sanitizeMap filters (Sanitize H filters fuel seen') es).map SanOut.omap
      | GoVal.vstruct fs => (sanitizeStruct filters (Sanitize H filters fuel seen') fs).map SanOut.omap
      | GoVal.vtextMar _ => (sanitizeStruct filters (Sanitize H filters fuel seen') []).map SanOut.omap
      | GoVal.vother t => some (SanOut.ostr ("[" ++ t ++ "]"))

/-! ### Termination of `Sanitize`

`Sanitize` pushes the current node onto the seen list before every
recursive call and stops as soon as a node repeats, so along any one
recursion path all visited values are distinct; they all live in the
finite set of structural subterms of the root and of the heap entries.
`sanFuel` counts that set, and `Sanitize_fuel_sufficient` shows this
fuel never runs out. -/

/-- The values `Sanitize` recurses into from `v` without dereferencing a
pointer: slice elements, map values, struct field values. -/
def kids : GoVal → List GoVal
  | GoVal.vslice xs => xs
  | GoVal.vmap es => es.map (fun p => p.2)
  | GoVal.vstruct fs => fs.map (fun f => f.2.2.2)
  | _ => []

mutual

/-- All structural subterms of a value (the value itself included). -/
def subtermsV : GoVal → List GoVal
  | GoVal.vslice xs => GoVal.vslice xs :: subtermsVL xs
  | GoVal.vmap es => GoVal.vmap es :: subtermsKV es
  | GoVal.vstruct fs => GoVal.vstruct fs :: subtermsF fs
  | v => [v]
termination_by structural a => a

def subtermsVL : List GoVal → List GoVal
  | [] => []
  | x :: xs => subtermsV x ++ subtermsVL xs
termination_by structural a => a

def subtermsKV : List (String × GoVal) → List GoVal
  | [] => []
  | (_, x) :: xs => subtermsV x ++ subtermsKV xs
termination_by structural a => a

def subtermsF : List (String × String × Bool × GoVal) → List GoVal
  | [] => []
  | (_, _, _, x) :: xs => subtermsV x ++ subtermsF xs
termination_by structural a => a

end

/-- Every value `Sanitize` can ever visit starting from `v` over heap
`H`: the subterms of `v`, the subterms of all heap entries, and the nil
value (read back for a dangling address). -/
def candidates (H : Heap) (v : GoVal) : List GoVal :=
  subtermsV v ++ (H.map (fun p => p.2)).flatMap subtermsV ++ [GoVal.vnil]

theorem self_mem_subtermsV (v : GoVal) : v ∈ subtermsV v := by
  cases v <;> simp [subtermsV]

theorem mem_subtermsVL_iff (xs : List GoVal) (w : GoVal) :
    w ∈ subtermsVL xs ↔ ∃ x ∈ xs, w ∈ subtermsV x := by
  induction xs with
  | nil => simp [subtermsVL]
  | cons x xs ih => simp [subtermsVL, ih]

theorem mem_subtermsKV_iff (es : List (String × GoVal)) (w : GoVal) :
    w ∈ subtermsKV es ↔ ∃ p ∈ es, w ∈ subtermsV p.2 := by
  induction es with
  | nil => simp [subtermsKV]
  | cons p es ih =>
    obtain ⟨k, x⟩ := p
    simp [subtermsKV, ih]

theorem mem_subtermsF_iff (fs : List (String × String × Bool × GoVal)) (w : GoVal) :
    w ∈ subtermsF fs ↔ ∃ p ∈ fs, w ∈ subtermsV p.2.2.2 := by
  induction fs with
  | nil => simp [subtermsF]
  | cons p fs ih =>
    obtain ⟨n, t, e, x⟩ := p
    simp [subtermsF, ih]

theorem kids_mem_subtermsV (v : GoVal) : ∀ c ∈ kids v, c ∈ subtermsV v := by
  intro c hc
  cases v with
  | vslice xs =>
    rw [subtermsV]
    simp only [kids] at hc
    exact List.mem_cons_of_mem _ ((mem_subtermsVL_iff xs c).mpr
      ⟨c, hc, self_mem_subtermsV c⟩)
  | vmap es =>
    rw [subtermsV]
    simp only [kids] at hc
    obtain ⟨p, hp, hpc⟩ := List.mem_map.mp hc
    exact List.mem_cons_of_mem _ ((mem_subtermsKV_iff es c).mpr
      ⟨p, hp, by rw [hpc]; exact self_mem_subtermsV c⟩)
  | vstruct fs =>
    rw [subtermsV]
    simp only [kids] at hc
    obtain ⟨p, hp, hpc⟩ := List.mem_map.mp hc
    exact List.mem_cons_of_mem _ ((mem_subtermsF_iff fs c).mpr
      ⟨p, hp, by rw [hpc]; exact self_mem_subtermsV c⟩)
  | vbool b => simp [kids] at hc
  | vint m => simp [kids] at hc
  | vstr s => simp [kids] at hc
  | verr s => simp [kids] at hc
  | vtime s => simp [kids] at hc
  | vstringer s => simp [kids] at hc
  | vtextUnm ok => simp [kids] at hc
  | vtextMar s => simp [kids] at hc
  | vnil => simp [kids] at hc
  | vptr a => simp [kids] at hc
  | vother s => simp [kids] at hc

/-- The subterm list is closed under taking recursion children. -/
theorem subtermsV_closed_aux :
    ∀ n v, sizeOf v ≤ n → ∀ w ∈ subtermsV v, ∀ c ∈ kids w, c ∈ subtermsV v := by
  intro n
  induction n with
  | zero =>
    intro v hv
    exfalso
    cases v <;> simp_all
  | succ n ih =>
    intro v hv w hw c hc
    cases v with
    | vslice xs =>
      rw [subtermsV] at hw ⊢
      rcases List.mem_cons.mp hw with h | h
      · subst h
        exact List.mem_cons_of_mem _ ((mem_subtermsVL_iff xs c).mpr
          ⟨c, by simpa [kids] using hc, self_mem_subtermsV c⟩)
      · obtain ⟨x, hx, hwx⟩ := (mem_subtermsVL_iff xs w).mp h
        have hsz : sizeOf x ≤ n := by
          have := List.sizeOf_lt_of_mem hx
          simp at hv
          omega
        exact List.mem_cons_of_mem _ ((mem_subtermsVL_iff xs c).mpr
          ⟨x, hx, ih x hsz w hwx c hc⟩)
    | vmap es =>
      rw [subtermsV] at hw ⊢
      rcases List.mem_cons.mp hw with h | h
      · subst h
        simp only [kids] at hc
        obtain ⟨p, hp, hpc⟩ := List.mem_map.mp hc
        exact List.mem_cons_of_mem _ ((mem_subtermsKV_iff es c).mpr
          ⟨p, hp, by rw [hpc]; exact self_mem_subtermsV c⟩)
      · obtain ⟨p, hp, hwp⟩ := (mem_subtermsKV_iff es w).mp h
        have hsz : sizeOf p.2 ≤ n := by
          have h1 := List.sizeOf_lt_of_mem hp
          obtain ⟨k, x⟩ := p
          simp at hv h1 ⊢
          omega
        exact List.mem_cons_of_mem _ ((mem_subtermsKV_iff es c).mpr
          ⟨p, hp, ih p.2 hsz w hwp c hc⟩)
    | vstruct fs =>
      rw [subtermsV] at hw ⊢
      rcases List.mem_cons.mp hw with h | h
      · subst h
        simp only [kids] at hc
        obtain ⟨p, hp, hpc⟩ := List.mem_map.mp hc
        exact List.mem_cons_of_mem _ ((mem_subtermsF_iff fs c).mpr
          ⟨p, hp, by rw [hpc]; exact self_mem_subtermsV c⟩)
      · obtain ⟨p, hp, hwp⟩ := (mem_subtermsF_iff fs w).mp h
        have hsz : sizeOf p.2.2.2 ≤ n := by
          have h1 := List.sizeOf_lt_of_mem hp
          obtain ⟨m, t, e, x⟩ := p
          simp at hv h1 ⊢
          omega
        exact List.mem_cons_of_mem _ ((mem_subtermsF_iff fs c).mpr
          ⟨p, hp, ih p.2.2.2 hsz w hwp c hc⟩)
    | vbool b => simp_all [subtermsV, kids]
    | vint m => simp_all [subtermsV, kids]
    | vstr s => simp_all [subtermsV, kids]
    | verr s => simp_all [subtermsV, kids]
    | vtime s => simp_all [subtermsV, kids]
    | vstringer s => simp_all [subtermsV, kids]
    | vtextUnm ok => simp_all [subtermsV, kids]
    | vtextMar s => simp_all [subtermsV, kids]
    | vnil => simp_all [subtermsV, kids]
    | vptr a => simp_all [subtermsV, kids]
    | vother s => simp_all [subtermsV, kids]

theorem subtermsV_closed (v w : GoVal) (hw : w ∈ subtermsV v) :
    ∀ c ∈ kids w, c ∈ subtermsV v :=
  subtermsV_closed_aux (sizeOf v) v (Nat.le_refl _) w hw

theorem candidates_self_mem (H : Heap) (v : GoVal) : v ∈ candidates H v := by
  unfold candidates
  exact List.mem_append_left _ (List.mem_append_left _ (self_mem_subtermsV v))

theorem candidates_closed (H : Heap) (v : GoVal) :
    ∀ w ∈ candidates H v, ∀ c ∈ kids w, c ∈ candidates H v := by
  intro w hw c hc
  unfold candidates at hw ⊢
  rcases List.mem_append.mp hw with h | h
  · rcases List.mem_append.mp h with h2 | h2
    · exact List.mem_append_left _ (List.mem_append_left _ (subtermsV_closed v w h2 c hc))
    · rcases List.mem_flatMap.mp h2 with ⟨x, hx, hwx⟩
      exact List.mem_append_left _ (List.mem_append_right _
        (List.mem_flatMap.mpr ⟨x, hx, subtermsV_closed x w hwx c hc⟩))
  · have hv : w = GoVal.vnil := by simpa using h
    subst hv
    simp [kids] at hc

theorem heapGet_mem_candidates (H : Heap) (v : GoVal) (a : Nat) :
    heapGet H a ∈ candidates H v := by
  unfold heapGet
  cases hfind : H.find? (fun p => p.1 = a) with
  | none =>
    unfold candidates
    exact List.mem_append_right _ (List.mem_singleton.mpr rfl)
  | some p =>
    have hp : p ∈ H := List.mem_of_find?_eq_some hfind
    unfold candidates
    exact List.mem_append_left _ (List.mem_append_right _ (List.mem_flatMap.mpr
      ⟨p.2, List.mem_map.mpr ⟨p, hp, rfl⟩, self_mem_subtermsV p.2⟩))

theorem sanitizeList_isSome (san : GoVal → Option SanOut) (xs : List GoVal)
    (h : ∀ x ∈ xs, (san x).isSome) : (sanitizeList san xs).isSome := by
  induction xs with
  | nil => simp [sanitizeList]
  | cons x xs ih =>
    have hx := h x (List.mem_cons_self x xs)
    have hrest := ih (fun z hz => h z (List.mem_cons_of_mem x hz))
    rw [sanitizeList]
    obtain ⟨o, ho⟩ := Option.isSome_iff_exists.mp hx
    obtain ⟨os, hos⟩ := Option.isSome_iff_exists.mp hrest
    rw [ho, hos]
    rfl

theorem sanitizeMap_isSome (filters : List String) (san : GoVal → Option SanOut)
    (es : List (String × GoVal)) (h : ∀ p ∈ es, (san p.2).isSome) :
    (sanitizeMap filters san es).isSome := by
  induction es with
  | nil => simp [sanitizeMap]
  | cons p es ih =>
    obtain ⟨k, x⟩ := p
    have hx := h (k, x) (List.mem_cons_self _ es)
    have hrest := ih (fun z hz => h z (List.mem_cons_of_mem _ hz))
    rw [sanitizeMap]
    obtain ⟨o, ho⟩ := Option.isSome_iff_exists.mp hx
    obtain ⟨os, hos⟩ := Option.isSome_iff_exists.mp hrest
    rw [ho, hos]
    rfl

theorem sanitizeStruct_isSome (filters : List String) (san : GoVal → Option SanOut)
    (fs : List (String × String × Bool × GoVal)) (h : ∀ p ∈ fs, (san p.2.2.2).isSome) :
    (sanitizeStruct filters san fs).isSome := by
  induction fs with
  | nil => simp [sanitizeStruct]
  | cons p fs ih =>
    obtain ⟨fname, tag, exported, val⟩ := p
    have hx := h (fname, tag, exported, val) (List.mem_cons_self _ fs)
    have hrest := ih (fun z hz => h z (List.mem_cons_of_mem _ hz))
    rw [sanitizeStruct]
    obtain ⟨os, hos⟩ := Option.isSome_iff_exists.mp hrest
    by_cases hexp : exported = false
    · simp [hexp, hos]
    · simp only [hexp, if_false]
      by_cases hred : shouldRedact (resolvedName fname tag) filters
      · simp [hred, hos]
      · obtain ⟨o, ho⟩ := Option.isSome_iff_exists.mp hx
        simp only [hred, if_false, ho, hos]
        cases o with
        | ostr s =>
          by_cases homit : "omitempty" ∈ resolvedOpts tag ∧ s = ""
          · simp [homit]
          · simp [homit]
        | obool b => rfl
        | oint n => rfl
        | oslice l => rfl
        | omap l => rfl

theorem isSome_map_of_isSome {α β : Type} (f : α → β) (o : Option α)
    (h : o.isSome) : (Option.map f o).isSome := by
  cases o with
  | none => simp at h
  | some a => rfl

/-- Lists all seen-lengths bookkeeping: a nodup sublist of the candidate
set cannot be longer than the candidate set's dedup. -/
theorem nodup_length_le_dedup (seen C : List GoVal) (hsub : seen ⊆ C)
    (hnd : seen.Nodup) : seen.length ≤ C.dedup.length := by
  have h1 : seen.toFinset.card = seen.length := List.toFinset_card_of_nodup hnd
  have h2 : seen.toFinset ⊆ C.toFinset := by
    intro x hx
    rw [List.mem_toFinset] at hx ⊢
    exact hsub hx
  have h3 : C.toFinset.card = C.dedup.length := List.card_toFinset C
  have := Finset.card_le_card h2
  omega

/-- Fuel-sufficiency invariant: as long as the fuel exceeds the number of
distinct candidate values not yet on the seen path, `Sanitize` does not
run out.  `C` is any kid-closed, deref-closed superset of the reachable
values. -/
theorem Sanitize_isSome_of_closed (H : Heap) (filters : List String) (C : List GoVal)
    (hC : ∀ w ∈ C, ∀ c ∈ kids w, c ∈ C) (hH : ∀ a, heapGet H a ∈ C) :
    ∀ fuel seen v, v ∈ C → seen ⊆ C → seen.Nodup →
      C.dedup.length < fuel + seen.length →
      (Sanitize H filters fuel seen v).isSome := by
  intro fuel
  induction fuel with
  | zero =>
    intro seen v hv hsub hnd hlt
    exfalso
    have := nodup_length_le_dedup seen C hsub hnd
    omega
  | succ fuel ih =>
    intro seen v hv hsub hnd hlt
    by_cases hmem : v ∈ seen
    · simp [Sanitize, hmem]
    · have hsub' : seen ++ [v] ⊆ C := by
        intro x hx
        rcases List.mem_append.mp hx with h | h
        · exact hsub h
        · rw [List.mem_singleton] at h
          subst h
          exact hv
      have hnd' : (seen ++ [v]).Nodup := by
        rw [List.nodup_append]
        exact ⟨hnd, List.nodup_singleton v, by simpa using hmem⟩
      have hlt' : C.dedup.length < fuel + (seen ++ [v]).length := by
        simp only [List.length_append, List.length_singleton]
        omega
      have hrec : ∀ c ∈ C, (Sanitize H filters fuel (seen ++ [v]) c).isSome :=
        fun c hc => ih (seen ++ [v]) c hc hsub' hnd' hlt'
      have hkids : ∀ c ∈ kids v, c ∈ C := hC v hv
      cases v with
      | verr m => simp [Sanitize, hmem]
      | vtime s => simp [Sanitize, hmem]
      | vstringer s => simp [Sanitize, hmem]
      | vtextUnm ok =>
        cases ok with
        | true => simp [Sanitize, hmem]
        | false =>
          simp only [Sanitize, hmem, if_false, Bool.false_eq_true]
          exact isSome_map_of_isSome _ _ (sanitizeStruct_isSome filters _ [] (by simp))
      | vbool b => simp [Sanitize, hmem]
      | vint n => simp [Sanitize, hmem]
      | vstr s => simp [Sanitize, hmem]
      | vnil => simp [Sanitize, hmem]
      | vptr a =>
        simp only [Sanitize, hmem, if_false]
        exact hrec (heapGet H a) (hH a)
      | vslice xs =>
        simp only [Sanitize, hmem, if_false]
        exact isSome_map_of_isSome _ _ (sanitizeList_isSome _ xs
          (fun x hx => hrec x (hkids x (by simpa [kids] using hx))))
      | vmap es =>
        simp only [Sanitize, hmem, if_false]
        refine isSome_map_of_isSome _ _
          (sanitizeMap_isSome filters _ es (fun p hp => hrec p.2 (hkids p.2 ?_)))
        simp only [kids]
        exact List.mem_map.mpr ⟨p, hp, rfl⟩
      | vstruct fs =>
        simp only [Sanitize, hmem, if_false]
        refine isSome_map_of_isSome _ _
          (sanitizeStruct_isSome filters _ fs (fun p hp => hrec p.2.2.2 (hkids p.2.2.2 ?_)))
        simp only [kids]
        exact List.mem_map.mpr ⟨p, hp, rfl⟩
      | vtextMar t =>
        simp only [Sanitize, hmem, if_false]
        exact isSome_map_of_isSome _ _ (sanitizeStruct_isSome filters _ [] (by simp))
      | vother t => simp [Sanitize, hmem]

/-- The computable fuel bound: one more than the number of distinct
values reachable from `v` over heap `H`. -/
def sanFuel (H : Heap) (v : GoVal) : Nat :=
  (candidates H v).dedup.length + 1

/-- Termination of `Sanitize`: with the computable bound `sanFuel`, the
sanitizer never runs out of fuel, for every heap and every root value. -/
theorem Sanitize_fuel_sufficient (H : Heap) (filters : List String) (v : GoVal) :
    (Sanitize H filters (sanFuel H v) [] v).isSome :=
  Sanitize_isSome_of_closed H filters (candidates H v)
    (candidates_closed H v) (heapGet_mem_candidates H v)
    (sanFuel H v) [] v (candidates_self_mem H v) (by simp) List.nodup_nil
    (by simp [sanFuel])

/-! ### Fuel monotonicity and the total sanitizer -/

theorem sanitizeList_mono (san1 san2 : GoVal → Option SanOut)
    (h : ∀ v r, san1 v = some r → san2 v = some r) :
    ∀ xs r, sanitizeList san1 xs = some r → sanitizeList san2 xs = some r := by
  intro xs
  induction xs with
  | nil => intro r hr; simpa [sanitizeList] using hr
  | cons x xs ih =>
    intro r hr
    rw [sanitizeList] at hr
    cases h1 : san1 x with
    | none => rw [h1] at hr; cases hr
    | some o =>
      rw [h1] at hr
      cases h2 : sanitizeList san1 xs with
      | none => rw [h2] at hr; cases hr
      | some os =>
        rw [h2] at hr
        rw [sanitizeList, h x o h1, ih os h2]
        exact hr

theorem sanitizeMap_mono (filters : List String) (san1 san2 : GoVal → Option SanOut)
    (h : ∀ v r, san1 v = some r → san2 v = some r) :
    ∀ es r, sanitizeMap filters san1 es = some r → sanitizeMap filters san2 es = some r := by
  intro es
  induction es with
  | nil => intro r hr; simpa [sanitizeMap] using hr
  | cons p es ih =>
    obtain ⟨k, x⟩ := p
    intro r hr
    rw [sanitizeMap] at hr
    cases h1 : san1 x with
    | none => rw [h1] at hr; cases hr
    | some o =>
      rw [h1] at hr
      cases h2 : sanitizeMap filters san1 es with
      | none => rw [h2] at hr; cases hr
      | some os =>
        rw [h2] at hr
        rw [sanitizeMap, h x o h1, ih os h2]
        exact hr

theorem sanitizeStruct_mono (filters : List String) (san1 san2 : GoVal → Option SanOut)
    (h : ∀ v r, san1 v = some r → san2 v = some r) :
    ∀ fs r, sanitizeStruct filters san1 fs = some r →
      sanitizeStruct filters san2 fs = some r := by
  intro fs
  induction fs with
  | nil => intro r hr; simpa [sanitizeStruct] using hr
  | cons p fs ih =>
    obtain ⟨fname, tag, exported, val⟩ := p
    intro r hr
    rw [sanitizeStruct] at hr
    rw [sanitizeStruct]
    by_cases hexp : exported = false
    · simp only [hexp, if_true] at hr ⊢
      exact ih r hr
    · simp only [hexp, if_false] at hr ⊢
      by_cases hred : shouldRedact (resolvedName fname tag) filters
      · simp only [hred, if_true] at hr ⊢
        cases h2 : sanitizeStruct filters san1 fs with
        | none => rw [h2] at hr; cases hr
        | some os => rw [h2] at hr; rw [ih os h2]; exact hr
      · simp only [hred, if_false] at hr ⊢
        cases h1 : san1 val with
        | none => rw [h1] at hr; cases hr
        | some o =>
          rw [h1] at hr
          cases h2 : sanitizeStruct filters san1 fs with
          | none => rw [h2] at hr; cases hr
          | some os =>
            rw [h2] at hr
            rw [h val o h1, ih os h2]
            exact hr

/-- Fuel monotonicity of the sanitizer: a successful run is stable under
extra fuel (needed to read off the value of the total sanitizer). -/
theorem Sanitize_mono (H : Heap) (filters : List String) :
    ∀ fuel1 fuel2 seen v r, fuel1 ≤ fuel2 →
      Sanitize H filters fuel1 seen v = some r →
      Sanitize H filters fuel2 seen v = some r := by
  intro fuel1
  induction fuel1 with
  | zero =>
    intro fuel2 seen v r _ hr
    cases hr
  | succ fuel1 ih =>
    intro fuel2 seen v r hle hr
    cases fuel2 with
    | zero => omega
    | succ fuel2 =>
      have hle2 : fuel1 ≤ fuel2 := Nat.succ_le_succ_iff.mp hle
      have hmono : ∀ w s, Sanitize H filters fuel1 (seen ++ [v]) w = some s →
          Sanitize H filters fuel2 (seen ++ [v]) w = some s :=
        fun w s hw => ih fuel2 (seen ++ [v]) w s hle2 hw
      by_cases hmem : v ∈ seen
      · simpa [Sanitize, hmem] using hr
      · cases v with
        | verr m => simpa [Sanitize, hmem] using hr
        | vtime s => simpa [Sanitize, hmem] using hr
        | vstringer s => simpa [Sanitize, hmem] using hr
        | vtextUnm ok =>
          cases ok with
          | true => simpa [Sanitize, hmem] using hr
          | false =>
            simp only [Sanitize, hmem, if_false, Bool.false_eq_true] at hr ⊢
            cases h2 : sanitizeStruct filters (Sanitize H filters fuel1 (seen ++ [GoVal.vtextUnm false])) [] with
            | none => rw [h2] at hr; cases hr
            | some os =>
              rw [h2] at hr
              rw [sanitizeStruct_mono filters _ _ hmono [] os h2]
              exact hr
        | vbool b => simpa [Sanitize, hmem] using hr
        | vint n => simpa [Sanitize, hmem] using hr
        | vstr s => simpa [Sanitize, hmem] using hr
        | vnil => simpa [Sanitize, hmem] using hr
        | vptr a =>
          simp only [Sanitize, hmem, if_false] at hr ⊢
          exact hmono _ _ hr
        | vslice xs =>
          simp only [Sanitize, hmem, if_false] at hr ⊢
          cases h2 : sanitizeList (Sanitize H filters fuel1 (seen ++ [GoVal.vslice xs])) xs with
          | none => rw [h2] at hr; cases hr
          | some os =>
            rw [h2] at hr
            rw [sanitizeList_mono _ _ hmono xs os h2]
            exact hr
        | vmap es =>
          simp only [Sanitize, hmem, if_false] at hr ⊢
          cases h2 : sanitizeMap filters (Sanitize H filters fuel1 (seen ++ [GoVal.vmap es])) es with
          | none => rw [h2] at hr; cases hr
          | some os =>
            rw [h2] at hr
            rw [sanitizeMap_mono filters _ _ hmono es os h2]
            exact hr
        | vstruct fs =>
          simp only [Sanitize, hmem, if_false] at hr ⊢
          cases h2 : sanitizeStruct filters (Sanitize H filters fuel1 (seen ++ [GoVal.vstruct fs])) fs with
          | none => rw [h2] at hr; cases hr
          | some os =>
            rw [h2] at hr
            rw [sanitizeStruct_mono filters _ _ hmono fs os h2]
            exact hr
        | vtextMar t =>
          simp only [Sanitize, hmem, if_false] at hr ⊢
          cases h2 : sanitizeStruct filters (Sanitize H filters fuel1 (seen ++ [GoVal.vtextMar t])) [] with
          | none => rw [h2] at hr; cases hr
          | some os =>
            rw [h2] at hr
            rw [sanitizeStruct_mono filters _ _ hmono [] os h2]
            exact hr
        | vother t => simpa [Sanitize, hmem] using hr

/-- The sanitizer as the total function it is in Go: run with the
sufficient fuel bound and read off the result (the default is never
reached, by `Sanitize_fuel_sufficient`). -/
def sanitizeTotal (H : Heap) (filters : List String) (v : GoVal) : SanOut :=
  (Sanitize H filters (sanFuel H v) [] v).getD (SanOut.ostr "")

/-- Any successful fueled run computes `sanitizeTotal`. -/
theorem sanitizeTotal_eq (H : Heap) (filters : List String) (v : GoVal)
    (fuel : Nat) (r : SanOut) (h : Sanitize H filters fuel [] v = some r) :
    sanitizeTotal H filters v = r := by
  obtain ⟨s, hs⟩ := Option.isSome_iff_exists.mp (Sanitize_fuel_sufficient H filters v)
  have h1 := Sanitize_mono H filters fuel (max fuel (sanFuel H v)) [] v r
    (Nat.le_max_left _ _) h
  have h2 := Sanitize_mono H filters (sanFuel H v) (max fuel (sanFuel H v)) [] v s
    (Nat.le_max_right _ _) hs
  rw [h1] at h2
  cases h2
  simp [sanitizeTotal, hs]

/-! ### Error normalization: `newErrorWithStack` (errors.go)

The Go function first replaces a nil error by `errors.New(msg)`, then
returns the error unchanged when its dynamic type already carries a
stack (the concrete type `*bserrors.Error`, or one of the capability
interfaces `Callers() []uintptr`, `StackFrames() []bserrors.StackFrame`,
`StackTrace() perrors.StackTrace`); otherwise it captures the current
call stack (`runtime.Callers`, modelled as the explicit list `captured`)
and scans forward for the first frame equal to the log call's program
counter `pc`, wrapping the error with that suffix; if `pc` is not found
it returns the error unchanged. -/

/-- A Go error as `newErrorWithStack` distinguishes them: either a plain
error with no stack capability, a `*bserrors.Error`, an error exposing a
`Callers`, `StackFrames` or `StackTrace` capability, or the library's
own wrapper `errorWithCallers` (which itself exposes `Callers`). -/
inductive GoErr where
  | plain (msg : String)
  | bsError (msg : String)
  | callersErr (msg : String) (stack : List Nat)
  | bsFramesErr (msg : String)
  | pStackErr (msg : String)
  | errorWithCallers (e : GoErr) (stack : List Nat)
  deriving DecidableEq

/-- The type switch `case *bserrors.Error, withCallers, withBSStackFrames,
withPStackTrace` of errors.go: does this error already carry a stack? -/
def hasStackCap : GoErr → Bool
  | GoErr.plain _ => false
  | _ => true

/-- The `for idx, ptr := range stack` loop of errors.go: the suffix of
the captured stack starting at the first program counter equal to `pc`,
or `none` when `pc` does not occur. -/
def findPCSuffix : List Nat → Nat → Option (List Nat)
  | [], _ => none
  | p :: rest, pc => if p = pc then some (p :: rest) else findPCSuffix rest pc

/-- errors.go `newErrorWithStack`. -/
def newErrorWithStack (err : Option GoErr) (msg : String) (pc : Nat)
    (captured : List Nat) : GoErr :=
  let e := err.getD (GoErr.plain msg)
  if hasStackCap e then e
  else
    match findPCSuffix captured pc with
    | some suf => GoErr.errorWithCallers e suf
    | none => e

/-- The `Callers()` frame list of an error that exposes one. -/
def callersOf : GoErr → List Nat
  | GoErr.errorWithCallers _ st => st
  | GoErr.callersErr _ st => st
  | _ => []

theorem findPCSuffix_of_mem (pc : Nat) :
    ∀ captured : List Nat, pc ∈ captured →
      findPCSuffix captured pc = some (captured.drop (captured.indexOf pc)) := by
  intro captured
  induction captured with
  | nil => intro h; cases h
  | cons p rest ih =>
    intro h
    by_cases hp : p = pc
    · subst hp
      simp [findPCSuffix, List.indexOf_cons_self]
    · have hmem : pc ∈ rest := by
        rcases List.mem_cons.mp h with h1 | h1
        · exact absurd h1.symm hp
        · exact h1
      have hidx : (p :: rest).indexOf pc = rest.indexOf pc + 1 :=
        List.indexOf_cons_ne rest hp
      rw [findPCSuffix, if_neg hp, ih hmem, hidx]
      rfl

theorem findPCSuffix_of_not_mem (pc : Nat) :
    ∀ captured : List Nat, pc ∉ captured → findPCSuffix captured pc = none := by
  intro captured
  induction captured with
  | nil => intro _; rfl
  | cons p rest ih =>
    intro h
    have hp : p ≠ pc := fun he => h (he ▸ List.mem_cons_self p rest)
    have hrest : pc ∉ rest := fun hm => h (List.mem_cons_of_mem p hm)
    rw [findPCSuffix, if_neg hp, ih hrest]

/-! ### Attribute values and the `Handler.Handle` flattening loop
(handler.go)

A slog attribute is a key plus a value; a value is either a group of
attributes (`slog.GroupValue`) or a leaf.  The leaf constructors mirror
the dynamic types the extraction switch in log_to_bug.go distinguishes:
an error (carrying its message), a full `bugsnag.User` record, the
library's `ID`/`Name`/`Email` capability types, or any other value
(carried as the `GoVal` the sanitizer receives).  Attribute values are
modelled already `Resolve()`d. -/

inductive AttrVal where
  | group (items : List (String × AttrVal))
  | aerr (msg : String)
  | auser (id uname uemail : String)
  | aid (s : String)
  | aname (s : String)
  | aemail (s : String)
  | aval (v : GoVal)

/-- An attribute: key and value. -/
abbrev Attr := String × AttrVal

/-- A node of the `groupOrAttrs` chain that `Handler.Handle` walks: the
chain is ordered newest-to-oldest, and each node is either a group-open
marker (`group` non-empty, `attrs` empty) created by `WithGroup`, or a
flat attribute batch (`group` empty) created by `WithAttrs`. -/
structure GoaNode where
  group : String
  attrs : List Attr

/-- The flattening loop of `Handler.Handle` (handler.go): walking the
chain newest-to-oldest, a named node wraps everything accumulated so far
into one group-valued attribute, any other node prepends its batch
(`append(slices.Clip(g.attrs), finalAttrs...)`). -/
def handleFlatten : List GoaNode → List Attr → List Attr
  | [], finalAttrs => finalAttrs
  | g :: rest, finalAttrs =>
    handleFlatten rest
      (if g.group ≠ "" then [(g.group, AttrVal.group finalAttrs)]
       else g.attrs ++ finalAttrs)

/-! ### The extraction pass: `Handler.accumulateRawData` (log_to_bug.go) -/

/-- `bugsnag.User`: id, name, email. -/
structure BUser where
  id : String
  uname : String
  uemail : String
  deriving DecidableEq

/-- The metadata tree `bugsnag.MetaData` (map of tab to map of key to
value), represented as its binding list; `mdAdd` has Go-map update
semantics (replace the binding of `(tab, key)` if present, else append). -/
abbrev MetaData := List ((String × String) × SanOut)

/-- `bugsnag.MetaData.Add tab key value`. -/
def mdAdd (md : MetaData) (tab key : String) (v : SanOut) : MetaData :=
  if md.any (fun e => e.1 = (tab, key)) then
    md.map (fun e => if e.1 = (tab, key) then ((tab, key), v) else e)
  else md ++ [((tab, key), v)]

/-- The `any` value an attribute leaf presents to `san.Sanitize` in
`accumulateRawData` (`attr.Value.Resolve().Any()`): an error value is
the error itself; a `bugsnag.User` is a struct with the json tags of
bugsnag-go's `User`; the `ID`/`Name`/`Email` capability types have
underlying kind string. -/
def leafGoVal : AttrVal → GoVal
  | AttrVal.group _ => GoVal.vnil
  | AttrVal.aerr m => GoVal.verr m
  | AttrVal.auser i n e => GoVal.vstruct
      [("Id", "id,omitempty", true, GoVal.vstr i),
       ("Name", "name,omitempty", true, GoVal.vstr n),
       ("Email", "email,omitempty", true, GoVal.vstr e)]
  | AttrVal.aid s => GoVal.vstr s
  | AttrVal.aname s => GoVal.vstr s
  | AttrVal.aemail s => GoVal.vstr s
  | AttrVal.aval v => v

/-- The accumulating state threaded through `accumulateRawData`: the
pointed-to `errForBugsnag` (as the latest error's message), the
pointed-to `bugsnag.User`, and the `bugsnag.MetaData`. -/
structure AccState where
  err : Option String
  user : BUser
  md : MetaData

mutual

/-- log_to_bug.go `Handler.accumulateRawData`: the loop over the
attribute list, with the body of one iteration split into
`accumulateAttr`. -/
def accumulateRawData (H : Heap) (filters : List String) :
    AccState → String → List Attr → AccState
  | st, _, [] => st
  | st, tab, (key, v) :: rest =>
    accumulateRawData H filters (accumulateAttr H filters st tab key v) tab rest
termination_by structural _ _ a => a

/-- One iteration of the `accumulateRawData` loop.  A group attribute
recurses with the group name as the tab (and nothing else happens for
it: the Go code `continue`s).  For a leaf, the type switch records the
latest error (in Go a value matching `case error:` is a non-nil
interface, so the `t != nil` guard always passes), overwrites the whole
user for a `bugsnag.User`, or merges a single field for the
`ID`/`Name`/`Email` capability types; the switch does not `continue`,
so every leaf then also reaches the metadata step: a key matching the
redaction policy records "[FILTERED]", any other leaf is resolved,
sanitized and recorded under the active tab and key. -/
def accumulateAttr (H : Heap) (filters : List String) :
    AccState → String → String → AttrVal → AccState
  | st, _, key, AttrVal.group items => accumulateRawData H filters st key items
  | st, tab, key, leaf =>
    let st1 :=
      match leaf with
      | AttrVal.aerr m => { st with err := some m }
      | AttrVal.auser i n e => { st with user := ⟨i, n, e⟩ }
      | AttrVal.aid s => { st with user := { st.user with id := s } }
      | AttrVal.aname s => { st with user := { st.user with uname := s } }
      | AttrVal.aemail s => { st with user := { st.user with uemail := s } }
      | _ => st
    if shouldRedact key filters then
      { st1 with md := mdAdd st1.md tab key (SanOut.ostr "[FILTERED]") }
    else
      { st1 with md := mdAdd st1.md tab key (sanitizeTotal H filters (leafGoVal leaf)) }
termination_by structural _ _ _ a => a

end

/-! ### Queue overflow: `Handler.Handle` / `Handler.logBufferFull`
(handler.go)

The bugs channel is a bounded FIFO of capacity 4000; `Handle` attempts a
non-blocking send (`select` with `default`), and on a full buffer calls
`logBufferFull`, which synthesizes a diagnostic record for the next
handler.  Sends and the synthetic record are modelled explicitly; time
(`time.Now()`) is an opaque parameter. -/

/-- The `bugRecord` placed on the bugs channel by `Handler.Handle`. -/
structure BugRec where
  t : Nat
  lvl : Int
  msg : String
  pc : Nat
  attrs : List Attr

/-- A `slog.Record` as far as this model needs it. -/
structure SlogRecord where
  time : Nat
  msg : String
  level : Int
  pc : Nat
  attrs : List Attr

/-- `slog.LevelError`. -/
def slogLevelError : Int := 8

/-- The capacity of the bugs channel (`make(chan bugRecord, 4000)`). -/
def bugsChCap : Nat := 4000

/-- handler.go `Handler.logBufferFull`: the synthetic diagnostic record
sent directly to the next handler when the buffered channel is full. -/
def logBufferFull (now : Nat) (originalMsg : String) (pc : Nat) : SlogRecord :=
  { time := now
    msg := "slog-bugsnag bug buffer full; increase max concurrency or decrease bugs"
    level := slogLevelError
    pc := pc
    attrs := [("original", AttrVal.aval (GoVal.vstr originalMsg))] }

/-- The `select { case h.bugsCh <- bug: default: h.logBufferFull(...) }`
step of `Handler.Handle`: a non-blocking enqueue attempt that returns the
new queue plus the synthetic record (if any) sent to the next handler.
Totality of this function is the non-blocking property: the step always
returns immediately, queue full or not. -/
def handleEnqueue (queue : List BugRec) (cap : Nat) (now : Nat) (bug : BugRec) :
    List BugRec × Option SlogRecord :=
  if queue.length < cap then (queue ++ [bug], none)
  else (queue, some (logBufferFull now bug.msg bug.pc))

/-! ### The dispatcher: bugs channel, worker pool, `Handler.Close`
(handler.go)

`NewHandler` starts `MaxNotifierConcurrency ≥ 1` worker goroutines that
`range` over the buffered channel `bugsCh`; `Handle` non-blockingly
sends accepted records; `Close` stores the closed flag, closes the
channel and waits on the worker `WaitGroup`.  This is modelled as a
labelled transition system over `DState`: the channel is the FIFO
`queue`, each worker is `idle` (between iterations of its `range`
loop), `busy u` (inside `h.notify` for unit `u`) or `exited` (its
`range` loop ended because the channel was closed and empty, and its
`workerWG.Done` ran), `closed` is the combined effect of
`closed.Store(true)` and `close(bugsCh)`, and `closeReturned` records
`workerWG.Wait()` returning inside `Close`.  `accepted` and `processed`
log the units ever sent on the channel and the units whose `notify`
call finished.  The check-flag-then-send of `Handle` is one atomic
enqueue step here. -/

/-- A worker goroutine's position in its `for bug := range h.bugsCh`
loop. -/
inductive WStatus where
  | idle
  | busy (u : Nat)
  | exited
  deriving DecidableEq

/-- Dispatcher state. -/
structure DState where
  closed : Bool
  closeReturned : Bool
  queue : List Nat
  accepted : List Nat
  processed : List Nat
  workers : List WStatus
  deriving DecidableEq

/-- The units currently inside a worker's `notify` call. -/
def busyUnits : List WStatus → List Nat :=
  List.filterMap (fun w =>
    match w with
    | WStatus.busy u => some u
    | _ => none)

/-- One transition of the dispatcher.  `cap` is the channel capacity. -/
inductive DStep (cap : Nat) : DState → DState → Prop where
  | enqueue (s : DState) (u : Nat) (hopen : s.closed = false)
      (hroom : s.queue.length < cap) :
      DStep cap s { s with queue := s.queue ++ [u], accepted := s.accepted ++ [u] }
  | reject (s : DState) (hopen : s.closed = false) (hfull : ¬ s.queue.length < cap) :
      DStep cap s s
  | closeStart (s : DState) (h : s.closed = false) :
      DStep cap s { s with closed := true }
  | take (s : DState) (u : Nat) (l r : List WStatus) (rest : List Nat)
      (hw : s.workers = l ++ WStatus.idle :: r) (hq : s.queue = u :: rest) :
      DStep cap s { s with workers := l ++ WStatus.busy u :: r, queue := rest }
  | finish (s : DState) (u : Nat) (l r : List WStatus)
      (hw : s.workers = l ++ WStatus.busy u :: r) :
      DStep cap s { s with workers := l ++ WStatus.idle :: r,
                           processed := s.processed ++ [u] }
  | wexit (s : DState) (l r : List WStatus)
      (hw : s.workers = l ++ WStatus.idle :: r) (hc : s.closed = true)
      (hq : s.queue = []) :
      DStep cap s { s with workers := l ++ WStatus.exited :: r }
  | closeRet (s : DState) (hc : s.closed = true)
      (hall : ∀ w ∈ s.workers, w = WStatus.exited) :
      DStep cap s { s with closeReturned := true }

/-- The dispatcher's initial state: open, empty channel, `n` idle
workers (`NewHandler` always starts at least one worker). -/
def initDState (n : Nat) : DState :=
  ⟨false, false, [], [], [], List.replicate n WStatus.idle⟩

/-- States the dispatcher can reach from some start with `n ≥ 1`
workers. -/
inductive DReachable (cap : Nat) : DState → Prop where
  | init (n : Nat) (hn : 0 < n) : DReachable cap (initDState n)
  | step (s s' : DState) (hs : DReachable cap s) (hstep : DStep cap s s') :
      DReachable cap s'

/-- The dispatcher invariant: accepted units are exactly the processed,
queued and in-flight ones (as a multiset); a returned `Close` implies
closed with all workers exited; workers only exit after close; once
closed with all workers exited the queue is empty; the pool is
nonempty. -/
def DInv (s : DState) : Prop :=
  (s.accepted : Multiset Nat) = ↑s.processed + ↑s.queue + ↑(busyUnits s.workers) ∧
  (s.closeReturned = true → s.closed = true ∧ ∀ w ∈ s.workers, w = WStatus.exited) ∧
  (s.closed = false → ∀ w ∈ s.workers, w ≠ WStatus.exited) ∧
  (s.closed = true → (∀ w ∈ s.workers, w = WStatus.exited) → s.queue = []) ∧
  s.workers ≠ []

theorem busyUnits_append (l r : List WStatus) :
    busyUnits (l ++ r) = busyUnits l ++ busyUnits r := by
  simp [busyUnits]

theorem DInv_init (n : Nat) (hn : 0 < n) : DInv (initDState n) := by
  refine ⟨?_, ?_, ?_, ?_, ?_⟩
  · simp [initDState, busyUnits]
  · simp [initDState]
  · intro _ w hw
    rw [List.eq_of_mem_replicate hw]
    simp
  · simp [initDState]
  · simp [initDState]
    omega

theorem busyUnits_all_exited (ws : List WStatus)
    (h : ∀ w ∈ ws, w = WStatus.exited) : busyUnits ws = [] := by
  rw [busyUnits, List.filterMap_eq_nil_iff]
  intro w hw
  rw [h w hw]

/-- Every dispatcher step preserves the invariant. -/
theorem DInv_step (cap : Nat) (s s' : DState) (hinv : DInv s)
    (hstep : DStep cap s s') : DInv s' := by
  obtain ⟨h1, h2, h3, h4, h5⟩ := hinv
  cases hstep with
  | enqueue u hopen hroom =>
    refine ⟨?_, ?_, ?_, ?_, ?_⟩
    · show ((s.accepted ++ [u] : List Nat) : Multiset Nat)
        = ↑s.processed + ↑(s.queue ++ [u]) + ↑(busyUnits s.workers)
      rw [← Multiset.coe_add, ← Multiset.coe_add, h1]
      abel
    · intro hcr
      exact absurd ((h2 hcr).1) (by simp [hopen])
    · intro hc w hw
      exact h3 hc w hw
    · intro hc
      simp [hopen] at hc
    · exact h5
  | reject hopen hfull => exact ⟨h1, h2, h3, h4, h5⟩
  | closeStart hcl =>
    refine ⟨h1, ?_, ?_, ?_, h5⟩
    · intro hcr
      exact absurd ((h2 hcr).1) (by simp [hcl])
    · intro hc
      simp at hc
    · intro _ hall
      obtain ⟨w0, hw0⟩ := List.exists_mem_of_ne_nil _ h5
      exact absurd (hall w0 hw0) (h3 hcl w0 hw0)
  | take u l r rest hw hq =>
    refine ⟨?_, ?_, ?_, ?_, ?_⟩
    · simp only [hw, hq] at h1 ⊢
      rw [busyUnits_append] at h1 ⊢
      simp only [busyUnits, List.filterMap_cons] at h1 ⊢
      simp only [← Multiset.cons_coe, ← Multiset.coe_add, ← Multiset.singleton_add] at h1 ⊢
      rw [h1]
      abel
    · intro hcr
      have := (h2 hcr).2 WStatus.idle (by rw [hw]; exact List.mem_append_right _ (List.mem_cons_self _ _))
      cases this
    · intro hc w hwmem
      rcases List.mem_append.mp hwmem with hmem | hmem
      · exact h3 hc w (hw ▸ List.mem_append_left _ hmem)
      · rcases List.mem_cons.mp hmem with hmem2 | hmem2
        · subst hmem2; simp
        · exact h3 hc w (hw ▸ List.mem_append_right _ (List.mem_cons_of_mem _ hmem2))
    · intro _ hall
      have := hall (WStatus.busy u) (List.mem_append_right _ (List.mem_cons_self _ _))
      cases this
    · simp
  | finish u l r hw =>
    refine ⟨?_, ?_, ?_, ?_, ?_⟩
    · simp only [hw] at h1 ⊢
      rw [busyUnits_append] at h1 ⊢
      simp only [busyUnits, List.filterMap_cons] at h1 ⊢
      simp only [← Multiset.cons_coe, ← Multiset.coe_add, ← Multiset.singleton_add] at h1 ⊢
      rw [h1]
      abel
    · intro hcr
      have := (h2 hcr).2 (WStatus.busy u) (by rw [hw]; exact List.mem_append_right _ (List.mem_cons_self _ _))
      cases this
    · intro hc w hwmem
      rcases List.mem_append.mp hwmem with hmem | hmem
      · exact h3 hc w (hw ▸ List.mem_append_left _ hmem)
      · rcases List.mem_cons.mp hmem with hmem2 | hmem2
        · subst hmem2; simp
        · exact h3 hc w (hw ▸ List.mem_append_right _ (List.mem_cons_of_mem _ hmem2))
    · intro _ hall
      have := hall WStatus.idle (List.mem_append_right _ (List.mem_cons_self _ _))
      cases this
    · simp
  | wexit l r hw hc hq =>
    refine ⟨?_, ?_, ?_, ?_, ?_⟩
    · simp only [hw] at h1 ⊢
      rw [busyUnits_append] at h1 ⊢
      simp only [busyUnits, List.filterMap_cons] at h1 ⊢
      exact h1
    · intro hcr
      have := (h2 hcr).2 WStatus.idle (by rw [hw]; exact List.mem_append_right _ (List.mem_cons_self _ _))
      cases this
    · intro hcf
      simp [hc] at hcf
    · intro _ _
      exact hq
    · simp
  | closeRet hc hall =>
    exact ⟨h1, fun _ => ⟨hc, hall⟩, h3, h4, h5⟩

/-- Every reachable dispatcher state satisfies the invariant. -/
theorem DReachable_inv (cap : Nat) (s : DState) (h : DReachable cap s) : DInv s := by
  induction h with
  | init n hn => exact DInv_init n hn
  | step s s' hs hstep ih => exact DInv_step cap s s' ih hstep

/-! ### Specification-side definitions for the extraction pass
(written from the spec's words, to be compared with the embedding) -/

/-- Written from the spec: the "last wins" reported error of a
depth-first walk over the flattened attributes — the message of the
last error-valued attribute encountered (groups are entered in place),
or `none` when there is none. -/
def specLatestErr : List Attr → Option String
  | [] => none
  | (_, AttrVal.group items) :: rest =>
    match specLatestErr rest with
    | some m => some m
    | none => specLatestErr items
  | (_, AttrVal.aerr m) :: rest =>
    match specLatestErr rest with
    | some m2 => some m2
    | none => some m
  | _ :: rest => specLatestErr rest

/-- Written from the spec: the metadata walk that treats every leaf —
error-valued or not — uniformly: redact by key or sanitize the resolved
value, and record it under the active tab and key. -/
def specMdWalk (H : Heap) (filters : List String) :
    MetaData → String → List Attr → MetaData
  | md, _, [] => md
  | md, tab, (key, AttrVal.group items) :: rest =>
    specMdWalk H filters (specMdWalk H filters md key items) tab rest
  | md, tab, (key, leaf) :: rest =>
    specMdWalk H filters
      (if shouldRedact key filters then mdAdd md tab key (SanOut.ostr "[FILTERED]")
       else mdAdd md tab key (sanitizeTotal H filters (leafGoVal leaf))) tab rest

/-! ### Values of the repository's own sanitizer test (metadata_test.go) -/

/-- The `_broken` struct of metadata_test.go: `Me` points back at the
value itself (`broken.Me = &broken`), `Data` is "ohai". -/
def brokenVal : GoVal :=
  GoVal.vstruct [("Me", "", true, GoVal.vptr 0), ("Data", "", true, GoVal.vstr "ohai")]

/-- The heap in which address 0 holds `brokenVal` itself. -/
def brokenHeap : Heap := [(0, brokenVal)]

/-! ### Properties of `sanitizeStruct` insertions (towards C10) -/

theorem sanitizeStruct_redacted_values (filters : List String)
    (san : GoVal → Option SanOut) :
    ∀ (fs : List (String × String × Bool × GoVal)) (out : List (String × SanOut)),
      sanitizeStruct filters san fs = some out →
      ∀ p ∈ out, shouldRedact p.1 filters = true → p.2 = SanOut.ostr "[FILTERED]" := by
  intro fs
  induction fs with
  | nil =>
    intro out hout p hp _
    rw [sanitizeStruct] at hout
    cases hout
    cases hp
  | cons f fs ih =>
    obtain ⟨fname, tag, exported, val⟩ := f
    intro out hout p hp hred
    rw [sanitizeStruct] at hout
    by_cases hexp : exported = false
    · rw [if_pos hexp] at hout
      exact ih out hout p hp hred
    · rw [if_neg hexp] at hout
      by_cases hr : shouldRedact (resolvedName fname tag) filters
      · rw [if_pos hr] at hout
        cases hrest : sanitizeStruct filters san fs with
        | none => rw [hrest] at hout; cases hout
        | some restv =>
          rw [hrest] at hout
          simp only [Option.map] at hout
          cases hout
          rcases List.mem_cons.mp hp with h | h
          · rw [h]
          · exact ih restv hrest p h hred
      · rw [if_neg hr] at hout
        cases hval : san val with
        | none => rw [hval] at hout; cases hout
        | some sv =>
          rw [hval] at hout
          cases hrest : sanitizeStruct filters san fs with
          | none => rw [hrest] at hout; cases hout
          | some restv =>
            rw [hrest] at hout
            cases sv with
            | ostr s =>
              dsimp only at hout
              by_cases homit : "omitempty" ∈ resolvedOpts tag ∧ s = ""
              · rw [if_pos homit] at hout
                cases hout
                exact ih out hrest p hp hred
              · rw [if_neg homit] at hout
                cases hout
                rcases List.mem_cons.mp hp with h | h
                · exact absurd (show shouldRedact (resolvedName fname tag) filters = true
                    from by rw [h] at hred; exact hred) hr
                · exact ih restv hrest p h hred
            | obool b =>
              dsimp only at hout
              cases hout
              rcases List.mem_cons.mp hp with h | h
              · exact absurd (show shouldRedact (resolvedName fname tag) filters = true
                  from by rw [h] at hred; exact hred) hr
              · exact ih restv hrest p h hred
            | oint n =>
              dsimp only at hout
              cases hout
              rcases List.mem_cons.mp hp with h | h
              · exact absurd (show shouldRedact (resolvedName fname tag) filters = true
                  from by rw [h] at hred; exact hred) hr
              · exact ih restv hrest p h hred
            | oslice l =>
              dsimp only at hout
              cases hout
              rcases List.mem_cons.mp hp with h | h
              · exact absurd (show shouldRedact (resolvedName fname tag) filters = true
                  from by rw [h] at hred; exact hred) hr
              · exact ih restv hrest p h hred
            | omap l =>
              dsimp only at hout
              cases hout
              rcases List.mem_cons.mp hp with h | h
              · exact absurd (show shouldRedact (resolvedName fname tag) filters = true
                  from by rw [h] at hred; exact hred) hr
              · exact ih restv hrest p h hred

theorem sanitizeStruct_redacted_present (filters : List String)
    (san : GoVal → Option SanOut) :
    ∀ (fs : List (String × String × Bool × GoVal)) (out : List (String × SanOut))
      (fname tag : String) (v : GoVal),
      sanitizeStruct filters san fs = some out →
      (fname, tag, true, v) ∈ fs →
      shouldRedact (resolvedName fname tag) filters = true →
      ∃ q ∈ out, q.1 = resolvedName fname tag := by
  intro fs
  induction fs with
  | nil =>
    intro out fname tag v _ hmem _
    cases hmem
  | cons f fs ih =>
    obtain ⟨gname, gtag, gexp, gval⟩ := f
    intro out fname tag v hout hmem hred
    rw [sanitizeStruct] at hout
    rcases List.mem_cons.mp hmem with hhead | htail
    · injection hhead with h1 h2
      injection h2 with h2 h3
      injection h3 with h3 h4
      subst h1; subst h2; subst h3
      rw [if_neg (by simp)] at hout
      rw [if_pos hred] at hout
      cases hrest : sanitizeStruct filters san fs with
      | none => rw [hrest] at hout; cases hout
      | some restv =>
        rw [hrest] at hout
        simp only [Option.map] at hout
        cases hout
        exact ⟨(resolvedName fname tag, SanOut.ostr "[FILTERED]"),
          List.mem_cons_self _ _, rfl⟩
    · by_cases hexp : gexp = false
      · rw [if_pos hexp] at hout
        exact ih out fname tag v hout htail hred
      · rw [if_neg hexp] at hout
        by_cases hr : shouldRedact (resolvedName gname gtag) filters
        · rw [if_pos hr] at hout
          cases hrest : sanitizeStruct filters san fs with
          | none => rw [hrest] at hout; cases hout
          | some restv =>
            rw [hrest] at hout
            simp only [Option.map] at hout
            cases hout
            obtain ⟨q, hq, hqk⟩ := ih restv fname tag v hrest htail hred
            exact ⟨q, List.mem_cons_of_mem _ hq, hqk⟩
        · rw [if_neg hr] at hout
          cases hval : san gval with
          | none => rw [hval] at hout; cases hout
          | some sv =>
            rw [hval] at hout
            cases hrest : sanitizeStruct filters san fs with
            | none => rw [hrest] at hout; cases hout
            | some restv =>
              rw [hrest] at hout
              obtain ⟨q, hq, hqk⟩ := ih restv fname tag v hrest htail hred
              cases sv with
              | ostr s =>
                dsimp only at hout
                by_cases homit : "omitempty" ∈ resolvedOpts gtag ∧ s = ""
                · rw [if_pos homit] at hout
                  cases hout
                  exact ⟨q, hq, hqk⟩
                · rw [if_neg homit] at hout
                  cases hout
                  exact ⟨q, List.mem_cons_of_mem _ hq, hqk⟩
              | obool b => dsimp only at hout; cases hout; exact ⟨q, List.mem_cons_of_mem _ hq, hqk⟩
              | oint n => dsimp only at hout; cases hout; exact ⟨q, List.mem_cons_of_mem _ hq, hqk⟩
              | oslice l => dsimp only at hout; cases hout; exact ⟨q, List.mem_cons_of_mem _ hq, hqk⟩
              | omap l => dsimp only at hout; cases hout; exact ⟨q, List.mem_cons_of_mem _ hq, hqk⟩

theorem mlookup_filtered (out : List (String × SanOut)) (k : String)
    (hex : ∃ q ∈ out, q.1 = k)
    (hall : ∀ p ∈ out, p.1 = k → p.2 = SanOut.ostr "[FILTERED]") :
    mlookup out k = some (SanOut.ostr "[FILTERED]") := by
  obtain ⟨q, hq, hqk⟩ := hex
  have hex2 : ∃ q ∈ out.reverse, (fun p => decide (p.1 = k)) q = true := by
    exact ⟨q, List.mem_reverse.mpr hq, by simp [hqk]⟩
  obtain ⟨p, hp⟩ := Option.isSome_iff_exists.mp (List.find?_isSome.mpr hex2)
  have hpk : p.1 = k := by
    have := List.find?_some hp
    simpa using this
  have hpm : p ∈ out := List.mem_reverse.mp (List.mem_of_find?_eq_some hp)
  rw [mlookup, hp]
  simp [hall p hpm hpk]

/-! ### The extraction pass agrees with the spec's description -/

theorem accumulate_spec_aux :
    ∀ (n : Nat) (attrs : List Attr), sizeOf attrs ≤ n →
      ∀ (H : Heap) (f : List String) (st : AccState) (tab : String),
        (accumulateRawData H f st tab attrs).err
          = (match specLatestErr attrs with
             | some m => some m
             | none => st.err) ∧
        (accumulateRawData H f st tab attrs).md = specMdWalk H f st.md tab attrs := by
  intro n
  induction n with
  | zero =>
    intro attrs hsz
    exfalso
    cases attrs <;> simp_all
  | succ n ih =>
    intro attrs hsz H f st tab
    cases attrs with
    | nil => simp [accumulateRawData, specLatestErr, specMdWalk]
    | cons a rest =>
      obtain ⟨key, v⟩ := a
      have hrest_sz : sizeOf rest ≤ n := by
        simp at hsz
        omega
      have hacc : accumulateRawData H f st tab ((key, v) :: rest)
          = accumulateRawData H f (accumulateAttr H f st tab key v) tab rest := by
        simp [accumulateRawData]
      cases v with
      | group items =>
        have hitems_sz : sizeOf items ≤ n := by
          simp at hsz
          omega
        have h1 := ih items hitems_sz H f st key
        have h2 := ih rest hrest_sz H f (accumulateRawData H f st key items) tab
        have hattr : accumulateAttr H f st tab key (AttrVal.group items)
            = accumulateRawData H f st key items := by
          simp [accumulateAttr]
        rw [hacc, hattr]
        constructor
        · rw [h2.1]
          cases hr : specLatestErr rest with
          | some m => simp [specLatestErr, hr]
          | none =>
            rw [h1.1]
            cases hi : specLatestErr items <;> simp [specLatestErr, hr, hi]
        · rw [h2.2, h1.2]
          simp [specMdWalk]
      | aerr m =>
        have h2 := ih rest hrest_sz H f (accumulateAttr H f st tab key (AttrVal.aerr m)) tab
        rw [hacc]
        have herr : (accumulateAttr H f st tab key (AttrVal.aerr m)).err = some m := by
          by_cases hred : shouldRedact key f <;> simp [accumulateAttr, hred]
        have hmd : (accumulateAttr H f st tab key (AttrVal.aerr m)).md
            = (if shouldRedact key f then mdAdd st.md tab key (SanOut.ostr "[FILTERED]")
               else mdAdd st.md tab key (sanitizeTotal H f (leafGoVal (AttrVal.aerr m)))) := by
          by_cases hred : shouldRedact key f <;> simp [accumulateAttr, hred]
        constructor
        · rw [h2.1, herr]
          cases hr : specLatestErr rest <;> simp [specLatestErr, hr]
        · rw [h2.2, hmd]
          simp [specMdWalk]
      | auser i nm em =>
        have h2 := ih rest hrest_sz H f (accumulateAttr H f st tab key (AttrVal.auser i nm em)) tab
        rw [hacc]
        have herr : (accumulateAttr H f st tab key (AttrVal.auser i nm em)).err = st.err := by
          by_cases hred : shouldRedact key f <;> simp [accumulateAttr, hred]
        have hmd : (accumulateAttr H f st tab key (AttrVal.auser i nm em)).md
            = (if shouldRedact key f then mdAdd st.md tab key (SanOut.ostr "[FILTERED]")
               else mdAdd st.md tab key (sanitizeTotal H f (leafGoVal (AttrVal.auser i nm em)))) := by
          by_cases hred : shouldRedact key f <;> simp [accumulateAttr, hred]
        constructor
        · rw [h2.1, herr]
          cases hr : specLatestErr rest <;> simp [specLatestErr, hr]
        · rw [h2.2, hmd]
          simp [specMdWalk]
      | aid s =>
        have h2 := ih rest hrest_sz H f (accumulateAttr H f st tab key (AttrVal.aid s)) tab
        rw [hacc]
        have herr : (accumulateAttr H f st tab key (AttrVal.aid s)).err = st.err := by
          by_cases hred : shouldRedact key f <;> simp [accumulateAttr, hred]
        have hmd : (accumulateAttr H f st tab key (AttrVal.aid s)).md
            = (if shouldRedact key f then mdAdd st.md tab key (SanOut.ostr "[FILTERED]")
               else mdAdd st.md tab key (sanitizeTotal H f (leafGoVal (AttrVal.aid s)))) := by
          by_cases hred : shouldRedact key f <;> simp [accumulateAttr, hred]
        constructor
        · rw [h2.1, herr]
          cases hr : specLatestErr rest <;> simp [specLatestErr, hr]
        · rw [h2.2, hmd]
          simp [specMdWalk]
      | aname s =>
        have h2 := ih rest hrest_sz H f (accumulateAttr H f st tab key (AttrVal.aname s)) tab
        rw [hacc]
        have herr : (accumulateAttr H f st tab key (AttrVal.aname s)).err = st.err := by
          by_cases hred : shouldRedact key f <;> simp [accumulateAttr, hred]
        have hmd : (accumulateAttr H f st tab key (AttrVal.aname s)).md
            = (if shouldRedact key f then mdAdd st.md tab key (SanOut.ostr "[FILTERED]")
               else mdAdd st.md tab key (sanitizeTotal H f (leafGoVal (AttrVal.aname s)))) := by
          by_cases hred : shouldRedact key f <;> simp [accumulateAttr, hred]
        constructor
        · rw [h2.1, herr]
          cases hr : specLatestErr rest <;> simp [specLatestErr, hr]
        · rw [h2.2, hmd]
          simp [specMdWalk]
      | aemail s =>
        have h2 := ih rest hrest_sz H f (accumulateAttr H f st tab key (AttrVal.aemail s)) tab
        rw [hacc]
        have herr : (accumulateAttr H f st tab key (AttrVal.aemail s)).err = st.err := by
          by_cases hred : shouldRedact key f <;> simp [accumulateAttr, hred]
        have hmd : (accumulateAttr H f st tab key (AttrVal.aemail s)).md
            = (if shouldRedact key f then mdAdd st.md tab key (SanOut.ostr "[FILTERED]")
               else mdAdd st.md tab key (sanitizeTotal H f (leafGoVal (AttrVal.aemail s)))) := by
          by_cases hred : shouldRedact key f <;> simp [accumulateAttr, hred]
        constructor
        · rw [h2.1, herr]
          cases hr : specLatestErr rest <;> simp [specLatestErr, hr]
        · rw [h2.2, hmd]
          simp [specMdWalk]
      | aval w =>
        have h2 := ih rest hrest_sz H f (accumulateAttr H f st tab key (AttrVal.aval w)) tab
        rw [hacc]
        have herr : (accumulateAttr H f st tab key (AttrVal.aval w)).err = st.err := by
          by_cases hred : shouldRedact key f <;> simp [accumulateAttr, hred]
        have hmd : (accumulateAttr H f st tab key (AttrVal.aval w)).md
            = (if shouldRedact key f then mdAdd st.md tab key (SanOut.ostr "[FILTERED]")
               else mdAdd st.md tab key (sanitizeTotal H f (leafGoVal (AttrVal.aval w)))) := by
          by_cases hred : shouldRedact key f <;> simp [accumulateAttr, hred]
        constructor
        · rw [h2.1, herr]
          cases hr : specLatestErr rest <;> simp [specLatestErr, hr]
        · rw [h2.2, hmd]
          simp [specMdWalk]

/-! ## The claims -/

/-- C1 (counterexample to the claim as stated): a value that is itself
the string "[RECURSION]" is rendered as the literal "[RECURSION]" even
though the ancestor path (`seen`) is empty, so no value has been
visited; hence "rendered as the literal [RECURSION] exactly when the
node equals a visited ancestor" fails in the only-if direction. -/
theorem C1_counterexample :
    Sanitize [] [] 2 [] (GoVal.vstr "[RECURSION]") = some (SanOut.ostr "[RECURSION]") := rfl

/-- C1 (amended): for every heap and input value `Sanitize` terminates
(the computable fuel bound `sanFuel` always suffices); the cycle guard
renders a node as "[RECURSION]" whenever it is structurally equal to
some value already visited on the current ancestor path (the seen list,
copied per recursive call); the repository's own self-referential test
value renders its back-reference as "[RECURSION]"; and two equal but
unrelated sibling values at the same depth are both rendered normally,
neither carrying the recursion marker.  (The amendment: a value whose
own rendering is the string "[RECURSION]" also displays as that literal
without being a back-reference, per `C1_counterexample`.) -/
theorem C1_sanitize_terminates_and_marks_cycles :
    (∀ (H : Heap) (filters : List String) (v : GoVal),
      (Sanitize H filters (sanFuel H v) [] v).isSome = true) ∧
    (∀ (H : Heap) (filters : List String) (fuel : Nat) (seen : List GoVal) (v : GoVal),
      v ∈ seen → Sanitize H filters (fuel + 1) seen v = some (SanOut.ostr "[RECURSION]")) ∧
    Sanitize brokenHeap [] 6 [] brokenVal
      = some (SanOut.omap [("Me", SanOut.ostr "[RECURSION]"), ("Data", SanOut.ostr "ohai")]) ∧
    (Sanitize [] [] 4 []
        (GoVal.vslice [GoVal.vstruct [("Data", "", true, GoVal.vstr "ohai")],
                       GoVal.vstruct [("Data", "", true, GoVal.vstr "ohai")]])
      = some (SanOut.oslice [SanOut.omap [("Data", SanOut.ostr "ohai")],
                             SanOut.omap [("Data", SanOut.ostr "ohai")]]) ∧
     SanOut.omap [("Data", SanOut.ostr "ohai")] ≠ SanOut.ostr "[RECURSION]") := by
  refine ⟨Sanitize_fuel_sufficient, fun H filters fuel seen v h => ?_, rfl, rfl, ?_⟩
  · simp [Sanitize, h]
  · intro h
    exact SanOut.noConfusion h

/-- C1 witness: the termination bound applied at a concrete value, and
the cycle guard applied on a concrete seen path. -/
theorem C1_witness :
    (Sanitize [] [] (sanFuel [] GoVal.vnil) [] GoVal.vnil).isSome = true ∧
    Sanitize [] [] 1 [GoVal.vnil] GoVal.vnil = some (SanOut.ostr "[RECURSION]") :=
  ⟨C1_sanitize_terminates_and_marks_cycles.1 [] [] GoVal.vnil,
   C1_sanitize_terminates_and_marks_cycles.2.1 [] [] 0 [GoVal.vnil] GoVal.vnil (by decide)⟩

/-- C2: `newErrorWithStack` returns any error exposing a stack
capability unchanged; for a capability-free error whose call-site pc
occurs in the captured stack, the result wraps the error with exactly
the suffix of the captured stack starting at the first frame equal to
pc, and its `Callers()` list is that suffix; when pc does not occur in
the captured stack, the original error is returned unwrapped. -/
theorem C2_newErrorWithStack_spec :
    (∀ (e : GoErr) (msg : String) (pc : Nat) (captured : List Nat),
      hasStackCap e = true → newErrorWithStack (some e) msg pc captured = e) ∧
    (∀ (e : GoErr) (msg : String) (pc : Nat) (captured : List Nat),
      hasStackCap e = false → pc ∈ captured →
        newErrorWithStack (some e) msg pc captured
          = GoErr.errorWithCallers e (captured.drop (captured.indexOf pc)) ∧
        callersOf (newErrorWithStack (some e) msg pc captured)
          = captured.drop (captured.indexOf pc)) ∧
    (∀ (e : GoErr) (msg : String) (pc : Nat) (captured : List Nat),
      hasStackCap e = false → pc ∉ captured →
        newErrorWithStack (some e) msg pc captured = e) := by
  refine ⟨fun e msg pc captured h => ?_, fun e msg pc captured h hmem => ?_,
    fun e msg pc captured h hnm => ?_⟩
  · simp [newErrorWithStack, h]
  · constructor
    · simp [newErrorWithStack, h, findPCSuffix_of_mem pc captured hmem]
    · simp [newErrorWithStack, h, findPCSuffix_of_mem pc captured hmem, callersOf]
  · simp [newErrorWithStack, h, findPCSuffix_of_not_mem pc captured hnm]

/-- C2 witness: the three behaviors at concrete inputs (a pkg/errors
style stack-capable error returned unchanged; a plain error spliced at
the first occurrence of pc 5; a plain error with absent pc returned
unwrapped). -/
theorem C2_witness :
    (hasStackCap (GoErr.pStackErr "x") = true ∧
      newErrorWithStack (some (GoErr.pStackErr "x")) "m" 5 [3, 5, 7] = GoErr.pStackErr "x") ∧
    (hasStackCap (GoErr.plain "x") = false ∧ (5 : Nat) ∈ [3, 5, 7, 5] ∧
      newErrorWithStack (some (GoErr.plain "x")) "m" 5 [3, 5, 7, 5]
        = GoErr.errorWithCallers (GoErr.plain "x") [5, 7, 5] ∧
      callersOf (newErrorWithStack (some (GoErr.plain "x")) "m" 5 [3, 5, 7, 5]) = [5, 7, 5]) ∧
    (hasStackCap (GoErr.plain "y") = false ∧ (9 : Nat) ∉ [3, 5, 7] ∧
      newErrorWithStack (some (GoErr.plain "y")) "m" 9 [3, 5, 7] = GoErr.plain "y") := by
  refine ⟨⟨rfl, C2_newErrorWithStack_spec.1 _ "m" 5 [3, 5, 7] rfl⟩,
    ⟨rfl, by decide, ?_, ?_⟩,
    ⟨rfl, by decide, C2_newErrorWithStack_spec.2.2 _ "m" 9 [3, 5, 7] rfl (by decide)⟩⟩
  · exact (C2_newErrorWithStack_spec.2.1 (GoErr.plain "x") "m" 5 [3, 5, 7, 5] rfl
      (by decide)).1.trans (by decide)
  · exact (C2_newErrorWithStack_spec.2.1 (GoErr.plain "x") "m" 5 [3, 5, 7, 5] rfl
      (by decide)).2.trans (by decide)

/-- C3: the `Handler.Handle` flattening preserves construction order:
a chain of flat batches (newest first, as the goa chain is stored)
flattens to oldest-batch ++ ... ++ newest-batch ++ event attributes; a
named group-open node wraps everything accumulated so far into a single
group-valued attribute under that name; an empty-named group-open node
(whose batch is empty) leaves the accumulated attributes unchanged and
introduces no group key. -/
theorem C3_handle_flatten_order :
    (∀ (batches : List (List Attr)) (evAttrs : List Attr),
      handleFlatten (batches.map (fun b => ⟨"", b⟩)) evAttrs
        = batches.reverse.flatten ++ evAttrs) ∧
    (∀ (n : String) (atts : List Attr) (rest : List GoaNode) (acc : List Attr),
      n ≠ "" → handleFlatten (⟨n, atts⟩ :: rest) acc
        = handleFlatten rest [(n, AttrVal.group acc)]) ∧
    (∀ (rest : List GoaNode) (acc : List Attr),
      handleFlatten (⟨"", []⟩ :: rest) acc = handleFlatten rest acc) := by
  refine ⟨fun batches => ?_, fun n atts rest acc hn => ?_, fun rest acc => ?_⟩
  · induction batches with
    | nil => intro ev; simp [handleFlatten]
    | cons b bs ih =>
      intro ev
      simp only [List.map_cons, handleFlatten, List.reverse_cons, List.flatten_append]
      rw [if_neg (by simp)]
      rw [ih (b ++ ev)]
      simp [List.append_assoc]
  · simp only [handleFlatten]
    rw [if_pos (by simpa using hn)]
  · simp [handleFlatten]

/-- C3 witness: a named group-open wraps a concrete accumulated list
into one group entry. -/
theorem C3_witness :
    ("group1" : String) ≠ "" ∧
    handleFlatten [⟨"group1", []⟩] [("with1", AttrVal.aval (GoVal.vstr "arg0"))]
      = [("group1", AttrVal.group [("with1", AttrVal.aval (GoVal.vstr "arg0"))])] := by
  refine ⟨by decide, ?_⟩
  rw [C3_handle_flatten_order.2.1 "group1" [] [] _ (by decide)]
  rfl

/-- C4 (counterexample to the claim as stated): a field whose explicit
json tag name is "-" is not forced to "[FILTERED]": `sanitizeStruct`
treats "-" as an ordinary resolved name, so with filters ["password"]
the field appears under the key "-" with its sanitized value. -/
theorem C4_counterexample :
    Sanitize [] ["password"] 3 [] (GoVal.vstruct [("Secret", "-", true, GoVal.vstr "s3")])
      = some (SanOut.omap [("-", SanOut.ostr "s3")]) ∧
    SanOut.ostr "s3" ≠ SanOut.ostr "[FILTERED]" := by
  refine ⟨rfl, fun h => ?_⟩
  injection h with h1
  exact absurd h1 (by decide)

/-- C4 (amended): an explicit per-field tag name overrides the default
field name; a field whose resolved name matches the redaction policy is
forced to "[FILTERED]"; unexported fields are skipped entirely; a field
with the "omitempty" option whose sanitized value is an empty string is
dropped, and is present under the tag name when non-empty.  (The
amendment: an explicit tag name of "-" is not special-cased; the field
is rendered under the literal key "-", filtered only if "-" itself
matches the redaction policy, per `C4_counterexample`.)  The concrete
record mirrors the repository's `_account` test struct. -/
theorem C4_struct_field_resolution :
    (∀ (filters : List String) (san : GoVal → Option SanOut) (fname tag : String)
       (v : GoVal) (rest : List (String × String × Bool × GoVal)),
      sanitizeStruct filters san ((fname, tag, false, v) :: rest)
        = sanitizeStruct filters san rest) ∧
    Sanitize [] ["password"] 3 []
        (GoVal.vstruct
          [("ID", "", true, GoVal.vstr "test"),
           ("Name", "", true, GoVal.vstr "test"),
           ("Password", "", true, GoVal.vstr "hunter2"),
           ("secret", "", false, GoVal.vstr "hush"),
           ("Email", "email", true, GoVal.vstr "example@example.com"),
           ("EmptyEmail", "emptyemail,omitempty", true, GoVal.vstr ""),
           ("NotEmptyEmail", "not_empty_email,omitempty", true,
             GoVal.vstr "not_empty_email@example.com")])
      = some (SanOut.omap
          [("ID", SanOut.ostr "test"),
           ("Name", SanOut.ostr "test"),
           ("Password", SanOut.ostr "[FILTERED]"),
           ("email", SanOut.ostr "example@example.com"),
           ("not_empty_email", SanOut.ostr "not_empty_email@example.com")]) ∧
    Sanitize [] ["password"] 3 [] (GoVal.vstruct [("Secret", "-", true, GoVal.vstr "s3")])
      = some (SanOut.omap [("-", SanOut.ostr "s3")]) := by
  refine ⟨fun filters san fname tag v rest => ?_, rfl, rfl⟩
  simp [sanitizeStruct]

/-- C5 (code bug): a value that can marshal itself to text — such as
metadata_test.go's `_textMarshaller`, whose `MarshalText` returns
"marshalled text" — does not implement `encoding.TextUnmarshaler`, so it
falls through the interface switch to struct kind dispatch and renders
as the empty map instead of its marshalled text; the repository's own
test `TestSanitize` expects "marshalled text" for it.  Moreover the code
of the `encoding.TextUnmarshaler` case calls `UnmarshalText` on a nil
byte slice and returns `string(b)` of that untouched nil slice, so a
successful unmarshaler renders as the empty string — the marshalled
text of a value is never consulted. -/
theorem C5_textMarshaler_code_bug :
    Sanitize [] [] 2 [] (GoVal.vtextMar "marshalled text") = some (SanOut.omap []) ∧
    some (SanOut.omap ([] : List (String × SanOut))) ≠ some (SanOut.ostr "marshalled text") ∧
    Sanitize [] [] 2 [] (GoVal.vtextUnm true) = some (SanOut.ostr "") := by
  refine ⟨rfl, fun h => ?_, rfl⟩
  injection h with h1
  exact SanOut.noConfusion h1

/-- C6: during the extraction pass, the reported error is the last
error-valued attribute of the depth-first walk (later occurrences
overwrite earlier ones; the initial error survives only if the walk has
none), and the produced metadata is exactly the metadata of the uniform
walk `specMdWalk` that treats every leaf — error-valued or not — like
any other field, redacting by key or sanitizing the value and recording
it under the active tab and key. -/
theorem C6_error_last_wins_and_still_recorded :
    ∀ (H : Heap) (filters : List String) (st : AccState) (tab : String) (attrs : List Attr),
      (accumulateRawData H filters st tab attrs).err
        = (match specLatestErr attrs with
           | some m => some m
           | none => st.err) ∧
      (accumulateRawData H filters st tab attrs).md
        = specMdWalk H filters st.md tab attrs :=
  fun H f st tab attrs => accumulate_spec_aux (sizeOf attrs) attrs (Nat.le_refl _) H f st tab

/-- C7: the enqueue attempt of `Handler.Handle` is a total step (it
never blocks); when the bounded queue is full it leaves the queue
unchanged and sends to the next handler a synthetic diagnostic record
with exactly the fixed message text, level equal to `slog.LevelError`
(= 8), and exactly one attribute, keyed "original", holding the
rejected record's original message; when there is room the record is
enqueued and no synthetic record is produced. -/
theorem C7_buffer_full_diagnostic :
    ∀ (queue : List BugRec) (now : Nat) (bug : BugRec),
      (queue.length = bugsChCap →
        handleEnqueue queue bugsChCap now bug
          = (queue, some
              { time := now
                msg := "slog-bugsnag bug buffer full; increase max concurrency or decrease bugs"
                level := slogLevelError
                pc := bug.pc
                attrs := [("original", AttrVal.aval (GoVal.vstr bug.msg))] }) ∧
        slogLevelError = 8 ∧
        (logBufferFull now bug.msg bug.pc).attrs.length = 1) ∧
      (queue.length < bugsChCap →
        handleEnqueue queue bugsChCap now bug = (queue ++ [bug], none)) := by
  intro queue now bug
  constructor
  · intro h
    refine ⟨?_, rfl, rfl⟩
    rw [handleEnqueue, if_neg (by omega)]
    rfl
  · intro h
    rw [handleEnqueue, if_pos h]

/-- C7 witness: a queue filled to capacity rejects and synthesizes the
diagnostic; a queue with room accepts. -/
theorem C7_witness :
    ((List.replicate bugsChCap (⟨0, 8, "orig", 0, []⟩ : BugRec)).length = bugsChCap ∧
      handleEnqueue (List.replicate bugsChCap (⟨0, 8, "orig", 0, []⟩ : BugRec))
          bugsChCap 0 ⟨0, 8, "orig", 0, []⟩
        = (List.replicate bugsChCap (⟨0, 8, "orig", 0, []⟩ : BugRec), some
            { time := 0
              msg := "slog-bugsnag bug buffer full; increase max concurrency or decrease bugs"
              level := slogLevelError
              pc := 0
              attrs := [("original", AttrVal.aval (GoVal.vstr "orig"))] })) ∧
    (([] : List BugRec).length < bugsChCap ∧
      handleEnqueue [] bugsChCap 0 ⟨0, 8, "orig", 0, []⟩
        = ([⟨0, 8, "orig", 0, []⟩], none)) := by
  refine ⟨⟨by simp, ?_⟩, ⟨by norm_num [bugsChCap], ?_⟩⟩
  · exact ((C7_buffer_full_diagnostic _ 0 _).1 (by simp)).1
  · exact (C7_buffer_full_diagnostic _ 0 _).2 (by norm_num [bugsChCap])

/-- C8: once the dispatcher is closed (`Handler.Close` stores the
closed flag and closes the channel), no step can change the set of
accepted units; and whenever `Close` has returned
(`workerWG.Wait()` finished, i.e. `closeReturned`), the multiset of
processed units is exactly the multiset of accepted units — every unit
accepted before the close has been consumed by a worker exactly once,
none twice, none abandoned. -/
theorem C8_close_drains_exactly_once :
    (∀ (cap : Nat) (s s2 : DState), DStep cap s s2 → s.closed = true →
      s2.accepted = s.accepted) ∧
    (∀ (cap : Nat) (s : DState), DReachable cap s → s.closeReturned = true →
      s.accepted.Perm s.processed) := by
  constructor
  · intro cap s s2 hstep hc
    cases hstep
    case enqueue u ho hr =>
      rw [hc] at ho
      cases ho
    all_goals rfl
  · intro cap s hreach hcr
    obtain ⟨h1, h2, h3, h4, h5⟩ := DReachable_inv cap s hreach
    obtain ⟨hc, hall⟩ := h2 hcr
    have hq := h4 hc hall
    have hb := busyUnits_all_exited s.workers hall
    rw [← Multiset.coe_eq_coe, h1, hq, hb]
    simp

/-- C8 witness: a concrete run — enqueue one unit, close, let the single
worker take, finish and exit, then Close returns — reaches a
close-returned state whose accepted and processed lists agree; and a
concrete post-close step leaves the accepted list unchanged. -/
theorem C8_witness :
    (([7] : List Nat).Perm [7]) ∧
    (⟨true, false, [], [7], [7], [WStatus.exited]⟩ : DState).accepted
      = (⟨true, false, [], [7], [7], [WStatus.idle]⟩ : DState).accepted := by
  constructor
  · have r0 : DReachable 1 (initDState 1) := DReachable.init 1 (by decide)
    have r1 := DReachable.step _ _ r0 (DStep.enqueue _ 7 rfl (by decide))
    have r2 := DReachable.step _ _ r1 (DStep.closeStart _ rfl)
    have r3 := DReachable.step _ _ r2 (DStep.take _ 7 [] [] [] rfl rfl)
    have r4 := DReachable.step _ _ r3 (DStep.finish _ 7 [] [] rfl)
    have r5 := DReachable.step _ _ r4 (DStep.wexit _ [] [] rfl rfl rfl)
    have r6 := DReachable.step _ _ r5 (DStep.closeRet _ rfl (by decide))
    exact C8_close_drains_exactly_once.2 1 _ r6 rfl
  · exact C8_close_drains_exactly_once.1 1
      ⟨true, false, [], [7], [7], [WStatus.idle]⟩ _
      (DStep.wexit _ [] [] rfl rfl rfl) rfl

/-- C9: the `ID`/`Name`/`Email` capability types merge into the single
accumulating user record without clearing previously set fields
(processing an identity-id attribute only replaces the id, and likewise
for name and email); in particular the spec's scenario — an id
"67890", a name "john" and an email via the three distinct capability
types, with no full identity record — yields a user with all three
fields populated. -/
theorem C9_identity_capability_merging :
    (∀ (H : Heap) (filters : List String) (st : AccState) (tab key s : String),
      (accumulateAttr H filters st tab key (AttrVal.aid s)).user = { st.user with id := s } ∧
      (accumulateAttr H filters st tab key (AttrVal.aname s)).user
        = { st.user with uname := s } ∧
      (accumulateAttr H filters st tab key (AttrVal.aemail s)).user
        = { st.user with uemail := s }) ∧
    (accumulateRawData [] [] ⟨none, ⟨"", "", ""⟩, []⟩ "log"
        [("id", AttrVal.aid "67890"), ("name", AttrVal.aname "john"),
         ("email", AttrVal.aemail "jdoe@example.com")]).user
      = ⟨"67890", "john", "jdoe@example.com"⟩ := by
  refine ⟨fun H filters st tab key s => ⟨?_, ?_, ?_⟩, rfl⟩
  · by_cases h : shouldRedact key filters <;> simp [accumulateAttr, h]
  · by_cases h : shouldRedact key filters <;> simp [accumulateAttr, h]
  · by_cases h : shouldRedact key filters <;> simp [accumulateAttr, h]

/-- C10: whenever `Sanitize` renders a struct, every exported field
whose resolved name matches the redaction policy is present in the
output with value "[FILTERED]" — unconditionally: the statement has no
side condition on the tag options, so "omitempty" (or an empty
underlying value) never drops a redacted field. -/
theorem C10_redacted_field_never_dropped :
    ∀ (H : Heap) (filters : List String) (fuel : Nat) (seen : List GoVal)
      (fs : List (String × String × Bool × GoVal)) (out : List (String × SanOut))
      (fname tag : String) (v : GoVal),
      Sanitize H filters fuel seen (GoVal.vstruct fs) = some (SanOut.omap out) →
      (fname, tag, true, v) ∈ fs →
      shouldRedact (resolvedName fname tag) filters = true →
      mlookup out (resolvedName fname tag) = some (SanOut.ostr "[FILTERED]") := by
  intro H filters fuel seen fs out fname tag v hout hmem hred
  cases fuel with
  | zero => cases hout
  | succ fuel =>
    by_cases hseen : GoVal.vstruct fs ∈ seen
    · simp [Sanitize, hseen] at hout
    · simp only [Sanitize, if_neg hseen] at hout
      cases hst : sanitizeStruct filters
          (Sanitize H filters fuel (seen ++ [GoVal.vstruct fs])) fs with
      | none => rw [hst] at hout; cases hout
      | some r =>
        rw [hst] at hout
        simp only [Option.map] at hout
        have hr : r = out := by
          injection hout with h1
          injection h1
        subst hr
        refine mlookup_filtered r _ ?_ ?_
        · exact sanitizeStruct_redacted_present filters _ fs r fname tag v hst hmem hred
        · intro p hp hpk
          refine sanitizeStruct_redacted_values filters _ fs r hst p hp ?_
          rw [hpk]
          exact hred

/-- C10 witness: a redacted field carrying the "omitempty" option and an
empty value is still present, as "[FILTERED]". -/
theorem C10_witness :
    Sanitize [] ["password"] 3 []
        (GoVal.vstruct [("Password", "password,omitempty", true, GoVal.vstr "")])
      = some (SanOut.omap [("password", SanOut.ostr "[FILTERED]")]) ∧
    mlookup [("password", SanOut.ostr "[FILTERED]")]
        (resolvedName "Password" "password,omitempty")
      = some (SanOut.ostr "[FILTERED]") := by
  refine ⟨rfl, ?_⟩
  exact C10_redacted_field_never_dropped [] ["password"] 3 []
    [("Password", "password,omitempty", true, GoVal.vstr "")]
    [("password", SanOut.ostr "[FILTERED]")] "Password" "password,omitempty"
    (GoVal.vstr "") rfl (by decide) (by decide)

end SlogBugsnag
